import Mathlib

/-!
# Verification of the bibliometric pipeline's similarity and graph subsystems

This file gives a shallow embedding, in Lean 4, of the algorithmic core of the
`ProyectoBibliometria_Sergio` repository:

* `Scripts grafo/caminos_minimos.py` — cost transforms and Dijkstra queries;
* `Scripts grafo/construir_grafo_citaciones.py` — citation-graph inference;
* `Scripts grafo/identificar_scc.py` — strongly connected components;
* `Scripts grafo/grafo_coocurrencia.py` — term co-occurrence graph;
* `algoritmosReq2/similarity_classical.py` — the classical similarity metrics.

Python floats are modelled as exact rationals (`ℚ`); Python exceptions are
modelled with `Except`/`Option`.  Calls into external libraries (`networkx`,
`scikit-learn`) are modelled by definitions reproducing the library's
documented behaviour; where a library computes a numeric matrix (the TF-IDF
cosine-similarity matrix), the matrix is taken as an explicit parameter of the
embedded function.
-/

/-! ## `caminos_minimos.add_cost_attribute` -/

/-- The `'weight'` attribute found on a graph edge, as seen by
`add_cost_attribute`: `missing` models `data.get('weight') is None`,
`unparseable` models a value on which `float(w)` raises, and `num q` models a
numeric weight `q`. -/
inductive WeightVal where
  | missing : WeightVal
  | unparseable : WeightVal
  | num : ℚ → WeightVal
deriving DecidableEq

/-- The numeric weight `add_cost_attribute` works with: a missing or
unparseable `'weight'` attribute is coerced to `1.0`. -/
def coerceWeight : WeightVal → ℚ
  | .missing => 1
  | .unparseable => 1
  | .num q => q

/-- The cost `add_cost_attribute` computes for a single edge whose `'weight'`
attribute is `wv`, under mode string `mode` and epsilon `eps`
(`min_weight_eps`, default `1e-6`).  Mirrors the `if`/`elif`/`else` chain of
`caminos_minimos.add_cost_attribute`. -/
def costOf (mode : String) (eps : ℚ) (wv : WeightVal) : ℚ :=
  let w := coerceWeight wv
  if mode = "inv" then
    if w ≤ 0 then 1 / eps else 1 / w
  else if mode = "1minus" then
    let w1 := if w < 0 then 0 else w
    let w2 := if w1 > 1 then 1 else w1
    let cost := 1 - w2
    if cost = 0 then eps else cost
  else
    1

/-- A weighted directed graph as loaded by `caminos_minimos.load_graph`:
a node list and an edge list carrying raw `'weight'` attributes. -/
structure WGraph where
  nodes : List String
  edges : List (String × String × WeightVal)
deriving DecidableEq

/-- `caminos_minimos.add_cost_attribute`: annotate every edge with its cost
(the Python function mutates `data['cost']`; the model returns the edge list
with the computed cost attached). -/
def add_cost_attribute (G : WGraph) (mode : String) (eps : ℚ) :
    List (String × String × WeightVal × ℚ) :=
  G.edges.map (fun e => (e.1, e.2.1, e.2.2, costOf mode eps e.2.2))

/-- Convenience projection: the cost carried by an annotated edge. -/
def edgeCost (e : String × String × WeightVal × ℚ) : ℚ := e.2.2.2

/-- Convenience projection: the raw weight carried by an annotated edge. -/
def edgeWeightVal (e : String × String × WeightVal × ℚ) : WeightVal := e.2.2.1

/-- Clamping as performed by the `'1minus'` branch equals `min 1 (max 0 w)`. -/
theorem clamp_eq (w : ℚ) :
    (if (if w < 0 then (0:ℚ) else w) > 1 then (1:ℚ) else (if w < 0 then (0:ℚ) else w))
      = min 1 (max 0 w) := by
  rcases lt_or_le w 0 with h | h
  · rw [if_pos h, max_eq_left h.le]
    norm_num
  · rw [if_neg (not_lt.mpr h), max_eq_right h]
    rcases le_or_lt w 1 with h1 | h1
    · rw [if_neg (not_lt.mpr h1), min_eq_right h1]
    · rw [if_pos h1, min_eq_left h1.le]

/-- `costOf` in mode `'inv'`. -/
theorem costOf_inv (eps : ℚ) (wv : WeightVal) :
    costOf "inv" eps wv =
      if coerceWeight wv ≤ 0 then 1 / eps else 1 / coerceWeight wv := by
  simp [costOf]

/-- `costOf` in mode `'1minus'`. -/
theorem costOf_oneminus (eps : ℚ) (wv : WeightVal) :
    costOf "1minus" eps wv =
      if 1 - min 1 (max 0 (coerceWeight wv)) = 0 then eps
      else 1 - min 1 (max 0 (coerceWeight wv)) := by
  have h := clamp_eq (coerceWeight wv)
  simp only [costOf]
  rw [if_neg (by decide : ¬("1minus":String) = "inv"), if_pos trivial, h]

/-- `costOf` in any mode other than `'inv'` and `'1minus'`. -/
theorem costOf_other (mode : String) (eps : ℚ) (wv : WeightVal)
    (h1 : mode ≠ "inv") (h2 : mode ≠ "1minus") : costOf mode eps wv = 1 := by
  simp only [costOf]
  rw [if_neg h1, if_neg h2]

/-- In every mode, with a positive epsilon, `costOf` is strictly positive. -/
theorem costOf_pos (mode : String) (eps : ℚ) (heps : 0 < eps) (wv : WeightVal) :
    0 < costOf mode eps wv := by
  by_cases hinv : mode = "inv"
  · subst hinv
    rw [costOf_inv]
    by_cases hle : coerceWeight wv ≤ 0
    · rw [if_pos hle]; positivity
    · push_neg at hle
      rw [if_neg (not_le.mpr hle)]; positivity
  · by_cases h1m : mode = "1minus"
    · subst h1m
      rw [costOf_oneminus]
      by_cases hz : 1 - min 1 (max 0 (coerceWeight wv)) = 0
      · rw [if_pos hz]; exact heps
      · rw [if_neg hz]
        have h1 : min 1 (max 0 (coerceWeight wv)) ≤ 1 := min_le_left _ _
        have h0 : 0 ≤ 1 - min 1 (max 0 (coerceWeight wv)) := by linarith
        rcases lt_or_eq_of_le h0 with h | h
        · exact h
        · exact absurd h.symm hz
    · rw [costOf_other mode eps wv hinv h1m]
      norm_num

/-- C3: under `'inv'`, cost is `1/weight` for positive weight and `10^6`
(that is, `1/ε` with `ε = 1e-6`) otherwise; under `'1minus'`, cost is
`1 - clamp(weight)` with exact zeros replaced by `ε`; under `'unit'`, cost is
`1.0`; and in every mode the cost of every edge is strictly positive (and, as
a rational, finite). -/
theorem add_cost_attribute_mode_spec (G : WGraph) (mode : String)
    (e : String × String × WeightVal × ℚ)
    (hmem : e ∈ add_cost_attribute G mode (1/1000000)) :
    0 < edgeCost e ∧
    (mode = "inv" →
      (0 < coerceWeight (edgeWeightVal e) →
        edgeCost e = 1 / coerceWeight (edgeWeightVal e)) ∧
      (coerceWeight (edgeWeightVal e) ≤ 0 → edgeCost e = 1000000)) ∧
    (mode = "1minus" →
      edgeCost e =
        (if 1 - min 1 (max 0 (coerceWeight (edgeWeightVal e))) = 0
         then 1/1000000
         else 1 - min 1 (max 0 (coerceWeight (edgeWeightVal e))))) ∧
    (mode = "unit" → edgeCost e = 1) := by
  rcases List.mem_map.mp hmem with ⟨ed, _hed, rfl⟩
  have hcost : edgeCost (ed.1, ed.2.1, ed.2.2, costOf mode (1/1000000) ed.2.2)
      = costOf mode (1/1000000) ed.2.2 := rfl
  have hwv : edgeWeightVal (ed.1, ed.2.1, ed.2.2, costOf mode (1/1000000) ed.2.2)
      = ed.2.2 := rfl
  rw [hcost, hwv]
  refine ⟨costOf_pos mode _ (by norm_num) _, ?_, ?_, ?_⟩
  · intro h
    subst h
    rw [costOf_inv]
    constructor
    · intro hpos
      rw [if_neg (not_le.mpr hpos)]
    · intro hle
      rw [if_pos hle]
      norm_num
  · intro h
    subst h
    rw [costOf_oneminus]
  · intro h
    subst h
    rw [costOf_other "unit" _ _ (by decide) (by decide)]

/-- Witness for `add_cost_attribute_mode_spec` at a concrete edge. -/
theorem add_cost_attribute_mode_spec_witness :
    (("a", "b", WeightVal.num (1/2), (2:ℚ)) ∈
        add_cost_attribute ⟨["a","b"], [("a","b", WeightVal.num (1/2))]⟩ "inv" (1/1000000)) ∧
    0 < edgeCost ("a", "b", WeightVal.num (1/2), (2:ℚ)) := by
  have hmem : (("a", "b", WeightVal.num (1/2), (2:ℚ)) ∈
      add_cost_attribute ⟨["a","b"], [("a","b", WeightVal.num (1/2))]⟩ "inv" (1/1000000)) := by
    simp only [add_cost_attribute, List.map_cons, List.map_nil, List.mem_singleton]
    norm_num [costOf, coerceWeight]
  exact ⟨hmem,
    (add_cost_attribute_mode_spec ⟨["a","b"], [("a","b", WeightVal.num (1/2))]⟩
      "inv" _ hmem).1⟩

/-- C10: an edge whose `'weight'` attribute is missing or unparseable is
costed exactly as if its weight were `1.0` (cost `1.0` under `'inv'`, `ε`
under `'1minus'`, `1.0` under `'unit'`); the graph is not rejected. -/
theorem add_cost_attribute_default_weight (G : WGraph) (mode : String)
    (e : String × String × WeightVal × ℚ)
    (hmem : e ∈ add_cost_attribute G mode (1/1000000))
    (hdeg : edgeWeightVal e = WeightVal.missing ∨ edgeWeightVal e = WeightVal.unparseable) :
    edgeCost e = costOf mode (1/1000000) (WeightVal.num 1) ∧
    (mode = "inv" → edgeCost e = 1) ∧
    (mode = "1minus" → edgeCost e = 1/1000000) ∧
    (mode = "unit" → edgeCost e = 1) := by
  rcases List.mem_map.mp hmem with ⟨ed, _hed, rfl⟩
  have hcost : edgeCost (ed.1, ed.2.1, ed.2.2, costOf mode (1/1000000) ed.2.2)
      = costOf mode (1/1000000) ed.2.2 := rfl
  have hwv : edgeWeightVal (ed.1, ed.2.1, ed.2.2, costOf mode (1/1000000) ed.2.2)
      = ed.2.2 := rfl
  rw [hcost]
  have hsame : costOf mode (1/1000000) ed.2.2 = costOf mode (1/1000000) (WeightVal.num 1) := by
    rcases hdeg with h | h <;> rw [show ed.2.2 = _ from h] <;> rfl
  refine ⟨hsame, ?_, ?_, ?_⟩
  · intro h
    subst h
    rw [hsame, costOf_inv]
    norm_num [coerceWeight]
  · intro h
    subst h
    rw [hsame, costOf_oneminus]
    norm_num [coerceWeight]
  · intro h
    subst h
    rw [hsame, costOf_other "unit" _ _ (by decide) (by decide)]

/-- Witness for `add_cost_attribute_default_weight` at a concrete edge. -/
theorem add_cost_attribute_default_weight_witness :
    (("a", "b", WeightVal.missing, (1:ℚ)) ∈
        add_cost_attribute ⟨["a","b"], [("a","b", WeightVal.missing)]⟩ "inv" (1/1000000)) ∧
    edgeCost ("a", "b", WeightVal.missing, (1:ℚ)) = 1 := by
  have hmem : (("a", "b", WeightVal.missing, (1:ℚ)) ∈
      add_cost_attribute ⟨["a","b"], [("a","b", WeightVal.missing)]⟩ "inv" (1/1000000)) := by
    simp only [add_cost_attribute, List.map_cons, List.map_nil, List.mem_singleton]
    norm_num [costOf, coerceWeight]
  exact ⟨hmem,
    (add_cost_attribute_default_weight ⟨["a","b"], [("a","b", WeightVal.missing)]⟩
      "inv" _ hmem (Or.inl rfl)).2.1 rfl⟩

/-! ## Reachability in a directed edge list

`networkx` graph traversals (Dijkstra, strongly connected components) are
modelled over explicit edge lists.  `Reach` is the specification-side
reachability relation; `reachable` is an executable breadth-first closure,
proved equivalent below. -/

/-- An edge list of a directed graph over string node identifiers. -/
abbrev EdgeList := List (String × String)

/-- Reachability along directed edges: reflexive, extended one edge at a
time at the end of the walk. -/
inductive Reach (E : EdgeList) : String → String → Prop where
  | refl (a : String) : Reach E a a
  | tail {a b c : String} : Reach E a b → (b, c) ∈ E → Reach E a c

theorem Reach.trans {E : EdgeList} {a b c : String}
    (h1 : Reach E a b) (h2 : Reach E b c) : Reach E a c := by
  induction h2 with
  | refl => exact h1
  | tail _ hedge ih => exact Reach.tail ih hedge

/-- One breadth step of the reachability closure: adjoin the targets of all
edges leaving the visited list `s` that are not yet visited. -/
def stepCl (E : EdgeList) (s : List String) : List String :=
  s ++ ((E.filter (fun e => decide (e.1 ∈ s ∧ e.2 ∉ s))).map Prod.snd).dedup

/-- Iterated breadth steps. -/
def iterStep : Nat → EdgeList → List String → List String
  | 0, _, s => s
  | k+1, E, s => stepCl E (iterStep k E s)

theorem mem_stepCl {E : EdgeList} {s : List String} {x : String} :
    x ∈ stepCl E s ↔ x ∈ s ∨ ∃ u, (u, x) ∈ E ∧ u ∈ s := by
  constructor
  · intro hx
    rcases List.mem_append.mp hx with h | h
    · exact Or.inl h
    · rcases List.mem_map.mp (List.mem_dedup.mp h) with ⟨e, he, rfl⟩
      rcases List.mem_filter.mp he with ⟨heE, hcond⟩
      rcases of_decide_eq_true hcond with ⟨h1, _⟩
      exact Or.inr ⟨e.1, by simpa using heE, h1⟩
  · intro hx
    rcases hx with h | ⟨u, huE, hu⟩
    · exact List.mem_append.mpr (Or.inl h)
    · by_cases hxs : x ∈ s
      · exact List.mem_append.mpr (Or.inl hxs)
      · refine List.mem_append.mpr (Or.inr (List.mem_dedup.mpr ?_))
        refine List.mem_map.mpr ⟨(u, x), List.mem_filter.mpr ⟨huE, ?_⟩, rfl⟩
        exact decide_eq_true (by exact ⟨hu, hxs⟩)

theorem subset_stepCl {E : EdgeList} {s : List String} : s ⊆ stepCl E s :=
  fun _ hx => List.mem_append.mpr (Or.inl hx)

theorem subset_iterStep {E : EdgeList} {s : List String} :
    ∀ k, s ⊆ iterStep k E s := by
  intro k
  induction k with
  | zero => exact fun _ h => h
  | succ k ih => exact fun x hx => subset_stepCl (ih hx)

theorem nodup_stepCl {E : EdgeList} {s : List String} (h : s.Nodup) :
    (stepCl E s).Nodup := by
  refine List.Nodup.append h (List.nodup_dedup _) ?_
  intro x hxs hxnew
  rcases List.mem_map.mp (List.mem_dedup.mp hxnew) with ⟨e, he, rfl⟩
  rcases List.mem_filter.mp he with ⟨_, hcond⟩
  rcases of_decide_eq_true hcond with ⟨_, h2⟩
  exact h2 hxs

theorem nodup_iterStep {E : EdgeList} {s : List String} (h : s.Nodup) :
    ∀ k, (iterStep k E s).Nodup := by
  intro k
  induction k with
  | zero => exact h
  | succ k ih => exact nodup_stepCl ih

/-- Every visited node is either initial or the target of some edge. -/
theorem iterStep_mem_universe {E : EdgeList} {s : List String} {x : String} :
    ∀ k, x ∈ iterStep k E s → x ∈ s ∨ x ∈ E.map Prod.snd := by
  intro k
  induction k with
  | zero => exact fun h => Or.inl h
  | succ k ih =>
    intro h
    rcases mem_stepCl.mp h with h | ⟨u, huE, _⟩
    · exact ih h
    · exact Or.inr (List.mem_map.mpr ⟨(u, x), huE, rfl⟩)

/-- Soundness of the closure: everything visited from `[n]` is reachable. -/
theorem iterStep_sound {E : EdgeList} {n x : String} :
    ∀ k, x ∈ iterStep k E [n] → Reach E n x := by
  suffices h : ∀ k (s : List String), (∀ y ∈ s, Reach E n y) →
      ∀ y ∈ iterStep k E s, Reach E n y by
    intro k hx
    exact h k [n] (by intro y hy; rcases List.mem_singleton.mp hy with rfl; exact Reach.refl _) x hx
  intro k
  induction k with
  | zero => exact fun s hs y hy => hs y hy
  | succ k ih =>
    intro s hs y hy
    rcases mem_stepCl.mp hy with h | ⟨u, huE, hu⟩
    · exact ih s hs y h
    · exact Reach.tail (ih s hs u hu) huE

theorem iterStep_add {E : EdgeList} {s : List String} (a b : Nat) :
    iterStep (a + b) E s = iterStep a E (iterStep b E s) := by
  induction a with
  | zero => simp [iterStep]
  | succ a ih =>
    have : a + 1 + b = (a + b) + 1 := by omega
    rw [this]
    simp only [iterStep, ih]

/-- A fixpoint of `stepCl` stays fixed under iteration. -/
theorem iterStep_of_fix {E : EdgeList} {s : List String}
    (h : stepCl E s = s) : ∀ k, iterStep k E s = s := by
  intro k
  induction k with
  | zero => rfl
  | succ k ih => simp only [iterStep, ih, h]

theorem fix_persist {E : EdgeList} {s : List String} {j : Nat}
    (h : stepCl E (iterStep j E s) = iterStep j E s) :
    ∀ k, j ≤ k → iterStep k E s = iterStep j E s := by
  intro k hk
  obtain ⟨d, rfl⟩ : ∃ d, k = d + j := ⟨k - j, by omega⟩
  rw [iterStep_add]
  exact iterStep_of_fix h d

/-- A non-fixed step strictly grows the visited list. -/
theorem length_lt_of_not_fix {E : EdgeList} {s : List String}
    (h : stepCl E s ≠ s) : s.length + 1 ≤ (stepCl E s).length := by
  unfold stepCl at *
  rcases hnew : ((E.filter (fun e => decide (e.1 ∈ s ∧ e.2 ∉ s))).map Prod.snd).dedup with _ | ⟨y, l⟩
  · exact absurd (by rw [hnew]; simp) h
  · rw [hnew]
    have hl : (s ++ y :: l).length = s.length + l.length + 1 := by
      simp
      omega
    omega

/-- While no fixpoint has been hit, the visited list grows by one per step. -/
theorem iterStep_growth {E : EdgeList} {s : List String} :
    ∀ k, stepCl E (iterStep k E s) ≠ iterStep k E s →
      s.length + (k + 1) ≤ (iterStep (k + 1) E s).length := by
  intro k
  induction k with
  | zero =>
    intro h
    simpa [iterStep] using length_lt_of_not_fix h
  | succ k ih =>
    intro h
    have hk : stepCl E (iterStep k E s) ≠ iterStep k E s := by
      intro hfix
      have h1 : iterStep (k + 1) E s = iterStep k E s := by
        simp only [iterStep, hfix]
      exact h (by rw [h1]; exact hfix)
    have h2 := ih hk
    have h3 := length_lt_of_not_fix h
    simp only [iterStep] at *
    omega

/-- With fuel `|E| + 1`, the closure from a single node is a fixpoint. -/
theorem iterStep_fix {E : EdgeList} {n : String} :
    stepCl E (iterStep (E.length + 1) E [n]) = iterStep (E.length + 1) E [n] := by
  by_contra h
  have hgrow := @iterStep_growth E [n] (E.length + 1) h
  have hnodup := @nodup_iterStep E [n] (by simp) (E.length + 1 + 1)
  have hsub : ∀ x ∈ iterStep (E.length + 1 + 1) E [n], x ∈ [n] ++ E.map Prod.snd := by
    intro x hx
    rcases iterStep_mem_universe _ hx with h' | h'
    · exact List.mem_append.mpr (Or.inl h')
    · exact List.mem_append.mpr (Or.inr h')
  have hlen : (iterStep (E.length + 1 + 1) E [n]).length ≤ ([n] ++ E.map Prod.snd).length := by
    have h1 : (iterStep (E.length + 1 + 1) E [n]).toFinset.card
        = (iterStep (E.length + 1 + 1) E [n]).length :=
      List.toFinset_card_of_nodup hnodup
    have h2 : (iterStep (E.length + 1 + 1) E [n]).toFinset ⊆ ([n] ++ E.map Prod.snd).toFinset := by
      intro x hx
      exact List.mem_toFinset.mpr (hsub x (List.mem_toFinset.mp hx))
    calc (iterStep (E.length + 1 + 1) E [n]).length
        = (iterStep (E.length + 1 + 1) E [n]).toFinset.card := h1.symm
      _ ≤ ([n] ++ E.map Prod.snd).toFinset.card := Finset.card_le_card h2
      _ ≤ ([n] ++ E.map Prod.snd).length := List.toFinset_card_le _
  have hu : ([n] ++ E.map Prod.snd).length = E.length + 1 := by simp
  have hs1 : ([n] : List String).length = 1 := by simp
  rw [hs1] at hgrow
  omega

/-- Completeness: any list closed under the edges and containing `n`
contains everything reachable from `n`. -/
theorem closed_reach {E : EdgeList} {T : List String}
    (hclosed : ∀ e ∈ E, e.1 ∈ T → e.2 ∈ T) {n : String} (hn : n ∈ T) :
    ∀ m, Reach E n m → m ∈ T := by
  intro m hm
  induction hm with
  | refl => exact hn
  | tail _ hedge ih => exact hclosed _ hedge ih

/-- A `stepCl`-fixpoint is closed under the edges. -/
theorem closed_of_fix {E : EdgeList} {s : List String}
    (h : stepCl E s = s) : ∀ e ∈ E, e.1 ∈ s → e.2 ∈ s := by
  intro e heE he1
  have : e.2 ∈ stepCl E s := mem_stepCl.mpr (Or.inr ⟨e.1, by simpa using heE, he1⟩)
  rwa [h] at this

/-- Executable reachability: membership in the saturated closure. -/
def reachable (E : EdgeList) (n m : String) : Prop :=
  m ∈ iterStep (E.length + 1) E [n]

instance (E : EdgeList) (n m : String) : Decidable (reachable E n m) := by
  unfold reachable
  infer_instance

/-- `reachable` decides `Reach`. -/
theorem reachable_iff {E : EdgeList} {n m : String} :
    reachable E n m ↔ Reach E n m := by
  constructor
  · exact iterStep_sound _
  · intro h
    exact closed_reach (closed_of_fix iterStep_fix)
      (subset_iterStep _ (List.mem_singleton.mpr rfl)) m h

/-- Membership in the closure is independent of any fuel `≥ |E| + 1`. -/
theorem iterStep_mem_of_ge {E : EdgeList} {n m : String} {k : Nat}
    (hk : E.length + 1 ≤ k) :
    (m ∈ iterStep k E [n]) ↔ reachable E n m := by
  unfold reachable
  rw [fix_persist iterStep_fix k hk]

/-! ## `caminos_minimos.dijkstra_shortest_path`

`nx.single_source_dijkstra` / `nx.dijkstra_path_length` are modelled by
iterated edge relaxation over an association list from node to
`(tentative distance, path)`.  For the nonnegative costs produced by
`add_cost_attribute` this computes shortest-path distances, and — the part
the claims rely on — its key set is exactly the set of nodes reachable from
the source (`NetworkXNoPath`, caught by `dijkstra_shortest_path`, corresponds
to a missing key). -/

/-- Dijkstra state: association list node ↦ (distance, path). -/
abbrev DijState := List (String × ℚ × List String)

/-- Association-list lookup (first match). -/
def alookup {β : Type} : List (String × β) → String → Option β
  | [], _ => none
  | (k, v) :: rest, x => if k = x then some v else alookup rest x

/-- Replace the value stored at key `v`. -/
def updateKey {β : Type} (st : List (String × β)) (v : String) (x : β) :
    List (String × β) :=
  st.map (fun kv => if kv.1 = v then (v, x) else kv)

/-- The keys of an association list. -/
def keysOf {β : Type} (st : List (String × β)) : List String := st.map Prod.fst

theorem keysOf_updateKey {β : Type} (st : List (String × β)) (v : String) (x : β) :
    keysOf (updateKey st v x) = keysOf st := by
  unfold keysOf updateKey
  rw [List.map_map]
  apply List.map_congr_left
  intro kv _
  by_cases h : kv.1 = v
  · simp [h]
  · simp [h]

theorem alookup_eq_none_iff {β : Type} (st : List (String × β)) (x : String) :
    alookup st x = none ↔ x ∉ keysOf st := by
  induction st with
  | nil => simp [alookup, keysOf]
  | cons kv rest ih =>
    by_cases h : kv.1 = x
    · simp [alookup, h, keysOf]
    · simp [alookup, h, keysOf, ih]
      intro hx
      exact fun heq => h heq.symm

theorem alookup_isSome_iff {β : Type} (st : List (String × β)) (x : String) :
    (alookup st x).isSome ↔ x ∈ keysOf st := by
  rcases h : alookup st x with _ | v
  · simp [Option.isSome]
    exact (alookup_eq_none_iff st x).mp h
  · simp [Option.isSome]
    by_contra hx
    rw [← alookup_eq_none_iff st x] at hx
    rw [h] at hx
    exact Option.noConfusion hx

/-- Relax one cost edge `e`, reading tentative distances from the round-start
state `stOld` and updating the accumulator `acc`. -/
def relaxEdge (stOld : DijState) (acc : DijState) (e : String × String × ℚ) :
    DijState :=
  match alookup stOld e.1 with
  | none => acc
  | some (d, p) =>
      match alookup acc e.2.1 with
      | none => acc ++ [(e.2.1, d + e.2.2, p ++ [e.2.1])]
      | some (d', _) =>
          if d + e.2.2 < d' then updateKey acc e.2.1 (d + e.2.2, p ++ [e.2.1]) else acc

/-- One full relaxation round over every edge. -/
def relaxRound (E : List (String × String × ℚ)) (st : DijState) : DijState :=
  E.foldl (relaxEdge st) st

/-- Iterated relaxation rounds. -/
def relaxIter : Nat → List (String × String × ℚ) → DijState → DijState
  | 0, _, st => st
  | k+1, E, st => relaxRound E (relaxIter k E st)

/-- The unweighted projection of a cost edge list. -/
def projEdges (E : List (String × String × ℚ)) : EdgeList :=
  E.map (fun e => (e.1, e.2.1))

theorem keysOf_relaxEdge (stOld acc : DijState) (e : String × String × ℚ) {x : String} :
    x ∈ keysOf (relaxEdge stOld acc e) ↔
      x ∈ keysOf acc ∨ (x = e.2.1 ∧ e.1 ∈ keysOf stOld) := by
  rcases h1 : alookup stOld e.1 with _ | ⟨d, p⟩
  · have hnotin : e.1 ∉ keysOf stOld := (alookup_eq_none_iff _ _).mp h1
    have hred : relaxEdge stOld acc e = acc := by simp [relaxEdge, h1]
    rw [hred]
    constructor
    · exact fun h => Or.inl h
    · rintro (h | ⟨_, h⟩)
      · exact h
      · exact absurd h hnotin
  · have hmem : e.1 ∈ keysOf stOld := by
      have : (alookup stOld e.1).isSome := by rw [h1]; rfl
      exact (alookup_isSome_iff _ _).mp this
    rcases h2 : alookup acc e.2.1 with _ | ⟨d', p'⟩
    · have hred : relaxEdge stOld acc e = acc ++ [(e.2.1, d + e.2.2, p ++ [e.2.1])] := by
        simp [relaxEdge, h1, h2]
      rw [hred]
      simp only [keysOf, List.map_append, List.mem_append]
      constructor
      · rintro (h | h)
        · exact Or.inl h
        · simp at h
          exact Or.inr ⟨h, hmem⟩
      · rintro (h | ⟨rfl, _⟩)
        · exact Or.inl h
        · right; simp
    · have hin : e.2.1 ∈ keysOf acc := by
        have : (alookup acc e.2.1).isSome := by rw [h2]; rfl
        exact (alookup_isSome_iff _ _).mp this
      by_cases hlt : d + e.2.2 < d'
      · have hred : relaxEdge stOld acc e = updateKey acc e.2.1 (d + e.2.2, p ++ [e.2.1]) := by
          simp only [relaxEdge, h1, h2]
          rw [if_pos hlt]
        rw [hred, keysOf_updateKey]
        constructor
        · exact fun h => Or.inl h
        · rintro (h | ⟨rfl, _⟩)
          · exact h
          · exact hin
      · have hred : relaxEdge stOld acc e = acc := by
          simp only [relaxEdge, h1, h2]
          rw [if_neg hlt]
        rw [hred]
        constructor
        · exact fun h => Or.inl h
        · rintro (h | ⟨rfl, _⟩)
          · exact h
          · exact hin

theorem keysOf_relaxRound (E : List (String × String × ℚ)) (st : DijState) {x : String} :
    x ∈ keysOf (relaxRound E st) ↔
      x ∈ keysOf st ∨ ∃ u, (u, x) ∈ projEdges E ∧ u ∈ keysOf st := by
  suffices h : ∀ (acc : DijState),
      (x ∈ keysOf (E.foldl (relaxEdge st) acc) ↔
        x ∈ keysOf acc ∨ ∃ u, (u, x) ∈ projEdges E ∧ u ∈ keysOf st) by
    exact h st
  induction E with
  | nil => simp [projEdges]
  | cons e rest ih =>
    intro acc
    simp only [List.foldl_cons]
    rw [ih (relaxEdge st acc e)]
    rw [keysOf_relaxEdge]
    constructor
    · rintro ((h | ⟨rfl, hu⟩) | ⟨u, hmem, hu⟩)
      · exact Or.inl h
      · exact Or.inr ⟨e.1, by simp [projEdges], hu⟩
      · exact Or.inr ⟨u, List.mem_cons_of_mem _ hmem, hu⟩
    · rintro (h | ⟨u, hmem, hu⟩)
      · exact Or.inl (Or.inl h)
      · simp only [projEdges, List.map_cons, List.mem_cons] at hmem
        rcases hmem with heq | hmem
        · have h1 : u = e.1 := congrArg Prod.fst heq
          have h2 : x = e.2.1 := congrArg Prod.snd heq
          exact Or.inl (Or.inr ⟨h2, h1 ▸ hu⟩)
        · exact Or.inr ⟨u, hmem, hu⟩

/-- Simulation: the key set of iterated relaxation is the breadth closure of
the projected edges. -/
theorem keysOf_relaxIter (E : List (String × String × ℚ)) (st : DijState) :
    ∀ k x, x ∈ keysOf (relaxIter k E st) ↔ x ∈ iterStep k (projEdges E) (keysOf st) := by
  intro k
  induction k with
  | zero => intro x; rfl
  | succ k ih =>
    intro x
    simp only [relaxIter, iterStep]
    rw [keysOf_relaxRound, mem_stepCl]
    constructor
    · rintro (h | ⟨u, hmem, hu⟩)
      · exact Or.inl ((ih x).mp h)
      · exact Or.inr ⟨u, hmem, (ih u).mp hu⟩
    · rintro (h | ⟨u, hmem, hu⟩)
      · exact Or.inl ((ih x).mpr h)
      · exact Or.inr ⟨u, hmem, (ih u).mpr hu⟩

/-- Model of `nx.single_source_dijkstra(G, source, weight='cost')`: iterated
relaxation run to saturation; maps every node reachable from `s` to a
(distance, path) pair. -/
def singleSourceDijkstra (E : List (String × String × ℚ)) (nodes : List String)
    (s : String) : DijState :=
  relaxIter (nodes.length + E.length + 1) E [(s, 0, [s])]

/-- A node holds an entry in the Dijkstra result iff it is reachable from the
source. -/
theorem mem_singleSourceDijkstra (E : List (String × String × ℚ))
    (nodes : List String) (s t : String) :
    t ∈ keysOf (singleSourceDijkstra E nodes s) ↔ Reach (projEdges E) s t := by
  unfold singleSourceDijkstra
  rw [keysOf_relaxIter]
  have hk : (projEdges E).length + 1 ≤ nodes.length + E.length + 1 := by
    simp [projEdges]
  have hkeys : keysOf [(s, (0:ℚ), [s])] = [s] := rfl
  rw [hkeys, iterStep_mem_of_ge hk, reachable_iff]

/-- A cost-annotated directed graph, as consumed by
`dijkstra_shortest_path(G, source, target, weight_attr='cost')`. -/
structure CGraph where
  nodes : List String
  edges : List (String × String × ℚ)

/-- What `dijkstra_shortest_path` returns on success: either a
`(distance, path)` pair (with `none` standing for `math.inf`) or, in
single-source mode, the distances and paths dictionaries. -/
inductive DijkstraOutcome where
  | pair : Option ℚ → List String → DijkstraOutcome
  | allFrom : List (String × ℚ) → List (String × List String) → DijkstraOutcome
deriving DecidableEq

/-- `caminos_minimos.dijkstra_shortest_path`.  Python's `if target:` treats
both `None` and the empty string as absent, so an empty-string target falls
through to single-source mode. -/
def dijkstra_shortest_path (G : CGraph) (source : String) (target : Option String) :
    Except String DijkstraOutcome :=
  if source ∈ G.nodes then
    match target with
    | some t =>
        if t ≠ "" then
          match alookup (singleSourceDijkstra G.edges G.nodes source) t with
          | some (d, p) => .ok (.pair (some d) p)
          | none => .ok (.pair none [])
        else
          .ok (.allFrom
            ((singleSourceDijkstra G.edges G.nodes source).map (fun kv => (kv.1, kv.2.1)))
            ((singleSourceDijkstra G.edges G.nodes source).map (fun kv => (kv.1, kv.2.2))))
    | none =>
        .ok (.allFrom
          ((singleSourceDijkstra G.edges G.nodes source).map (fun kv => (kv.1, kv.2.1)))
          ((singleSourceDijkstra G.edges G.nodes source).map (fun kv => (kv.1, kv.2.2))))
  else
    .error ("Source " ++ source ++ " no está en el grafo.")

/-- C4 (amended): with a missing source the call errors for every target;
with a present source and a *non-empty* given target, an unreachable target
yields the sentinel `(math.inf, [])` and a reachable one a finite
`(distance, path)` pair.  (The empty-string target is excluded: Python's
`if target:` sends it to single-source mode, see the counterexample.) -/
theorem dijkstra_shortest_path_spec :
    (∀ (G : CGraph) (source : String) (target : Option String),
      source ∉ G.nodes →
        dijkstra_shortest_path G source target
          = Except.error ("Source " ++ source ++ " no está en el grafo.")) ∧
    (∀ (G : CGraph) (source t : String),
      source ∈ G.nodes → t ≠ "" → ¬ Reach (projEdges G.edges) source t →
        dijkstra_shortest_path G source (some t)
          = Except.ok (DijkstraOutcome.pair none [])) ∧
    (∀ (G : CGraph) (source t : String),
      source ∈ G.nodes → t ≠ "" → Reach (projEdges G.edges) source t →
        ∃ d p, dijkstra_shortest_path G source (some t)
          = Except.ok (DijkstraOutcome.pair (some d) p)) := by
  refine ⟨?_, ?_, ?_⟩
  · intro G source target h
    unfold dijkstra_shortest_path
    rw [if_neg h]
  · intro G source t hs ht hnr
    have hkeys : t ∉ keysOf (singleSourceDijkstra G.edges G.nodes source) := by
      rw [mem_singleSourceDijkstra]
      exact hnr
    have hnone : alookup (singleSourceDijkstra G.edges G.nodes source) t = none :=
      (alookup_eq_none_iff _ _).mpr hkeys
    unfold dijkstra_shortest_path
    rw [if_pos hs]
    simp only [if_pos ht, hnone]
  · intro G source t hs ht hr
    have hkeys : t ∈ keysOf (singleSourceDijkstra G.edges G.nodes source) :=
      (mem_singleSourceDijkstra _ _ _ _).mpr hr
    rcases hl : alookup (singleSourceDijkstra G.edges G.nodes source) t with _ | ⟨d, p⟩
    · exact absurd ((alookup_eq_none_iff _ _).mp hl) (by simpa using hkeys)
    · refine ⟨d, p, ?_⟩
      unfold dijkstra_shortest_path
      rw [if_pos hs]
      simp only [if_pos ht, hl]

/-- Witness for `dijkstra_shortest_path_spec` at concrete graphs. -/
theorem dijkstra_shortest_path_spec_witness :
    dijkstra_shortest_path ⟨["a"], []⟩ "z" none
      = Except.error ("Source " ++ "z" ++ " no está en el grafo.") ∧
    dijkstra_shortest_path ⟨["a"], []⟩ "a" (some "b")
      = Except.ok (DijkstraOutcome.pair none []) := by
  constructor
  · exact dijkstra_shortest_path_spec.1 ⟨["a"], []⟩ "z" none (by decide)
  · refine dijkstra_shortest_path_spec.2.1 ⟨["a"], []⟩ "a" "b" (by decide) (by decide) ?_
    intro h
    have h2 : reachable (projEdges ([] : List (String × String × ℚ))) "a" "b" :=
      reachable_iff.mpr h
    revert h2
    decide

/-- C4 counterexample: the claim as stated fails for a given-but-empty
target.  In the graph with nodes `a` and `""` and no edges, `""` is given as
target and unreachable from `a`, yet the call returns the single-source
dictionaries instead of the `(math.inf, [])` sentinel, because Python's
`if target:` treats the empty string as falsy. -/
theorem dijkstra_empty_target_counterexample :
    ("a" ∈ (CGraph.mk ["a", ""] []).nodes) ∧
    ¬ Reach (projEdges (CGraph.mk ["a", ""] []).edges) "a" "" ∧
    dijkstra_shortest_path (CGraph.mk ["a", ""] []) "a" (some "")
      = Except.ok (DijkstraOutcome.allFrom [("a", 0)] [("a", ["a"])]) ∧
    dijkstra_shortest_path (CGraph.mk ["a", ""] []) "a" (some "")
      ≠ Except.ok (DijkstraOutcome.pair none []) := by
  refine ⟨by decide, ?_, rfl, ?_⟩
  · intro h
    have h2 : reachable (projEdges ([] : List (String × String × ℚ))) "a" "" :=
      reachable_iff.mpr h
    revert h2
    decide
  · intro heq
    rw [show dijkstra_shortest_path (CGraph.mk ["a", ""] []) "a" (some "")
        = Except.ok (DijkstraOutcome.allFrom [("a", 0)] [("a", ["a"])]) from rfl] at heq
    simp at heq

/-! ## `identificar_scc.identify_scc`

`nx.strongly_connected_components` is modelled by its documented semantics:
one component per mutual-reachability class, discovered in node order;
`identify_scc` then sorts the components by descending size (Python's stable
`components.sort(key=len, reverse=True)`). -/

/-- A directed graph as loaded by `identificar_scc.load_graph`. -/
structure DGraph where
  nodes : List String
  edges : EdgeList

theorem reachable_refl (E : EdgeList) (v : String) : reachable E v v :=
  subset_iterStep _ (List.mem_singleton.mpr rfl)

theorem reachable_trans {E : EdgeList} {a b c : String}
    (h1 : reachable E a b) (h2 : reachable E b c) : reachable E a c :=
  reachable_iff.mpr ((reachable_iff.mp h1).trans (reachable_iff.mp h2))

/-- The strongly connected component of `v`: all nodes mutually reachable
with `v`, listed in node order. -/
def sccOf (G : DGraph) (v : String) : List String :=
  G.nodes.filter (fun m => decide (reachable G.edges v m) && decide (reachable G.edges m v))

/-- Collect one component per first-discovered representative. -/
def sccAccum (G : DGraph) : List String → List (List String) → List (List String)
  | [], acc => acc
  | v :: rest, acc =>
      sccAccum G rest
        (if acc.any (fun C => decide (v ∈ C)) then acc else acc ++ [sccOf G v])

/-- The components as yielded by `nx.strongly_connected_components`. -/
def sccListRaw (G : DGraph) : List (List String) := sccAccum G G.nodes []

/-- `identificar_scc.identify_scc`: components sorted by descending size. -/
def identify_scc (G : DGraph) : List (List String) :=
  (sccListRaw G).mergeSort (fun a b => decide (b.length ≤ a.length))

theorem mem_sccOf {G : DGraph} {v y : String} :
    y ∈ sccOf G v ↔ y ∈ G.nodes ∧ reachable G.edges v y ∧ reachable G.edges y v := by
  unfold sccOf
  rw [List.mem_filter]
  simp

/-- Mutually reachable nodes have literally equal component lists. -/
theorem sccOf_congr {G : DGraph} {u v : String}
    (h1 : reachable G.edges v u) (h2 : reachable G.edges u v) :
    sccOf G v = sccOf G u := by
  unfold sccOf
  apply List.filter_congr
  intro m _
  have e1 : reachable G.edges v m ↔ reachable G.edges u m :=
    ⟨fun h => reachable_trans h2 h, fun h => reachable_trans h1 h⟩
  have e2 : reachable G.edges m v ↔ reachable G.edges m u :=
    ⟨fun h => reachable_trans h h1, fun h => reachable_trans h h2⟩
  rw [decide_eq_decide.mpr e1, decide_eq_decide.mpr e2]

theorem sccAccum_mono (G : DGraph) :
    ∀ (l : List String) (acc : List (List String)) (C : List String),
      C ∈ acc → C ∈ sccAccum G l acc := by
  intro l
  induction l with
  | nil => exact fun acc C h => h
  | cons v rest ih =>
    intro acc C h
    simp only [sccAccum]
    by_cases hcov : acc.any (fun C => decide (v ∈ C))
    · rw [if_pos hcov]
      exact ih acc C h
    · rw [if_neg hcov]
      exact ih _ C (List.mem_append.mpr (Or.inl h))

theorem sccAccum_shape (G : DGraph) :
    ∀ (l : List String) (acc : List (List String)) (C : List String),
      C ∈ sccAccum G l acc → C ∈ acc ∨ ∃ v ∈ l, C = sccOf G v := by
  intro l
  induction l with
  | nil => exact fun acc C h => Or.inl h
  | cons v rest ih =>
    intro acc C h
    simp only [sccAccum] at h
    by_cases hcov : acc.any (fun C => decide (v ∈ C))
    · rw [if_pos hcov] at h
      rcases ih acc C h with h | ⟨u, hu, rfl⟩
      · exact Or.inl h
      · exact Or.inr ⟨u, List.mem_cons_of_mem _ hu, rfl⟩
    · rw [if_neg hcov] at h
      rcases ih _ C h with h | ⟨u, hu, rfl⟩
      · rcases List.mem_append.mp h with h | h
        · exact Or.inl h
        · rcases List.mem_singleton.mp h with rfl
          exact Or.inr ⟨v, List.mem_cons_self v rest, rfl⟩
      · exact Or.inr ⟨u, List.mem_cons_of_mem _ hu, rfl⟩

theorem sccAccum_cover (G : DGraph) :
    ∀ (l : List String) (acc : List (List String)),
      (∀ v ∈ l, v ∈ G.nodes) →
      ∀ v ∈ l, ∃ C ∈ sccAccum G l acc, v ∈ C := by
  intro l
  induction l with
  | nil => intro acc _ v hv; exact absurd hv (List.not_mem_nil v)
  | cons w rest ih =>
    intro acc hnodes v hv
    simp only [sccAccum]
    rcases List.mem_cons.mp hv with rfl | hv
    · by_cases hcov : acc.any (fun C => decide (v ∈ C))
      · rw [if_pos hcov]
        rcases List.any_eq_true.mp hcov with ⟨C, hC, hvC⟩
        exact ⟨C, sccAccum_mono G rest acc C hC, of_decide_eq_true hvC⟩
      · rw [if_neg hcov]
        refine ⟨sccOf G v, sccAccum_mono G rest _ _ (List.mem_append.mpr (Or.inr ?_)), ?_⟩
        · exact List.mem_singleton.mpr rfl
        · exact mem_sccOf.mpr ⟨hnodes v (List.mem_cons_self v rest),
            reachable_refl _ v, reachable_refl _ v⟩
    · by_cases hcov : acc.any (fun C => decide (w ∈ C))
      · rw [if_pos hcov]
        exact ih acc (fun u hu => hnodes u (List.mem_cons_of_mem _ hu)) v hv
      · rw [if_neg hcov]
        exact ih _ (fun u hu => hnodes u (List.mem_cons_of_mem _ hu)) v hv

/-- The accumulated components are pairwise disjoint and each is a
mutual-reachability class. -/
theorem sccAccum_pairwise (G : DGraph) :
    ∀ (l : List String) (acc : List (List String)),
      (∀ v ∈ l, v ∈ G.nodes) →
      (∀ C ∈ acc, ∃ u, C = sccOf G u) →
      acc.Pairwise (fun C D => ∀ x, x ∈ C → x ∉ D) →
      (sccAccum G l acc).Pairwise (fun C D => ∀ x, x ∈ C → x ∉ D) ∧
        (∀ C ∈ sccAccum G l acc, ∃ u, C = sccOf G u) := by
  intro l
  induction l with
  | nil => exact fun acc _ hshape hpw => ⟨hpw, hshape⟩
  | cons v rest ih =>
    intro acc hnodes hshape hpw
    simp only [sccAccum]
    by_cases hcov : acc.any (fun C => decide (v ∈ C))
    · rw [if_pos hcov]
      exact ih acc (fun u hu => hnodes u (List.mem_cons_of_mem _ hu)) hshape hpw
    · rw [if_neg hcov]
      have hnotin : ∀ C ∈ acc, v ∉ C := by
        intro C hC hvC
        exact (List.any_eq_true.not.mp hcov) ⟨C, hC, decide_eq_true hvC⟩
      have hvnode : v ∈ G.nodes := hnodes v (List.mem_cons_self v rest)
      have hvin : v ∈ sccOf G v :=
        mem_sccOf.mpr ⟨hvnode, reachable_refl _ v, reachable_refl _ v⟩
      refine ih _ (fun u hu => hnodes u (List.mem_cons_of_mem _ hu)) ?_ ?_
      · intro C hC
        rcases List.mem_append.mp hC with h | h
        · exact hshape C h
        · rcases List.mem_singleton.mp h with rfl
          exact ⟨v, rfl⟩
      · rw [List.pairwise_append]
        refine ⟨hpw, List.pairwise_singleton _ _, ?_⟩
        intro C hC D hD x hxC hxD
        rcases List.mem_singleton.mp hD with rfl
        rcases hshape C hC with ⟨u, rfl⟩
        rcases mem_sccOf.mp hxC with ⟨_, hux, hxu⟩
        rcases mem_sccOf.mp hxD with ⟨_, hvx, hxv⟩
        have huv : reachable G.edges u v := reachable_trans hux hxv
        have hvu : reachable G.edges v u := reachable_trans hvx hxu
        have : sccOf G u = sccOf G v := sccOf_congr huv hvu
        exact hnotin _ hC (this ▸ hvin)

/-- Any raw component containing `x` is exactly the mutual-reachability
class of `x` (intersected with the node list). -/
theorem sccListRaw_class (G : DGraph) (C : List String) (hC : C ∈ sccListRaw G)
    (x : String) (hx : x ∈ C) (y : String) :
    y ∈ C ↔ y ∈ G.nodes ∧ reachable G.edges x y ∧ reachable G.edges y x := by
  rcases sccAccum_shape G G.nodes [] C hC with h | ⟨v, _, rfl⟩
  · exact absurd h (List.not_mem_nil C)
  · rcases mem_sccOf.mp hx with ⟨_, hvx, hxv⟩
    rw [mem_sccOf]
    constructor
    · rintro ⟨hynode, hvy, hyv⟩
      exact ⟨hynode, reachable_trans hxv hvy, reachable_trans hyv hvx⟩
    · rintro ⟨hynode, hxy, hyx⟩
      exact ⟨hynode, reachable_trans hvx hxy, reachable_trans hyx hxv⟩

/-- C5: `identify_scc` returns a complete partition of the nodes into
strongly connected components (each listed component is exactly the
mutual-reachability class of each of its members; components are pairwise
disjoint and cover every node), ordered by descending size; on the 3-cycle
`a→b→c→a` plus the isolated node `d` it returns exactly `{a,b,c}` (size 3)
followed by `{d}` (size 1). -/
theorem identify_scc_spec :
    (∀ G : DGraph,
      (∀ x, (∃ C ∈ identify_scc G, x ∈ C) ↔ x ∈ G.nodes) ∧
      (identify_scc G).Pairwise (fun C D => ∀ x, x ∈ C → x ∉ D) ∧
      (∀ C ∈ identify_scc G, ∀ x ∈ C, ∀ y,
          (y ∈ C ↔ y ∈ G.nodes ∧ Reach G.edges x y ∧ Reach G.edges y x)) ∧
      (identify_scc G).Pairwise (fun C D => D.length ≤ C.length)) ∧
    identify_scc ⟨["a","b","c","d"], [("a","b"),("b","c"),("c","a")]⟩
      = [["a","b","c"], ["d"]] := by
  constructor
  · intro G
    have hmemiff : ∀ C : List String, C ∈ identify_scc G ↔ C ∈ sccListRaw G := by
      intro C
      exact List.mem_mergeSort
    refine ⟨?_, ?_, ?_, ?_⟩
    · intro x
      constructor
      · rintro ⟨C, hC, hxC⟩
        rcases sccAccum_shape G G.nodes [] C ((hmemiff C).mp hC) with h | ⟨v, _, rfl⟩
        · exact absurd h (List.not_mem_nil C)
        · exact (mem_sccOf.mp hxC).1
      · intro hx
        rcases sccAccum_cover G G.nodes [] (fun v hv => hv) x hx with ⟨C, hC, hxC⟩
        exact ⟨C, (hmemiff C).mpr hC, hxC⟩
    · have hraw : (sccListRaw G).Pairwise (fun C D => ∀ x, x ∈ C → x ∉ D) :=
        (sccAccum_pairwise G G.nodes [] (fun v hv => hv)
          (fun C hC => absurd hC (List.not_mem_nil C)) List.Pairwise.nil).1
      have hsymm : Symmetric (fun C D : List String => ∀ x, x ∈ C → x ∉ D) := by
        intro C D h x hxD hxC
        exact h x hxC hxD
      exact ((List.mergeSort_perm (sccListRaw G) _).pairwise_iff @hsymm).mpr hraw
    · intro C hC x hx y
      rw [sccListRaw_class G C ((hmemiff C).mp hC) x hx y, reachable_iff, reachable_iff]
    · have hs := @List.sorted_mergeSort (List String)
        (fun C D : List String => decide (D.length ≤ C.length))
        (fun a b c hab hbc => decide_eq_true
          (le_trans (of_decide_eq_true hbc) (of_decide_eq_true hab)))
        (fun a b => by
          rcases le_total b.length a.length with h | h
          · simp [h]
          · simp [h])
        (sccListRaw G)
      exact hs.imp (fun h => of_decide_eq_true h)
  · have hraw : sccListRaw ⟨["a","b","c","d"], [("a","b"),("b","c"),("c","a")]⟩
        = [["a","b","c"], ["d"]] := by decide
    unfold identify_scc
    rw [hraw]
    exact List.mergeSort_of_sorted (by decide)

/-- Witness for `identify_scc_spec` at the 3-cycle-plus-isolated-node graph. -/
theorem identify_scc_spec_witness :
    identify_scc ⟨["a","b","c","d"], [("a","b"),("b","c"),("c","a")]⟩
      = [["a","b","c"], ["d"]] ∧
    (identify_scc ⟨["a","b","c","d"], [("a","b"),("b","c"),("c","a")]⟩).Pairwise
      (fun C D => D.length ≤ C.length) ∧
    ("b" ∈ (["a","b","c"] : List String) ↔
      ("b" ∈ (DGraph.mk ["a","b","c","d"] [("a","b"),("b","c"),("c","a")]).nodes ∧
        Reach [("a","b"),("b","c"),("c","a")] "a" "b" ∧
        Reach [("a","b"),("b","c"),("c","a")] "b" "a")) := by
  refine ⟨identify_scc_spec.2, (identify_scc_spec.1 _).2.2.2, ?_⟩
  have hC : (["a","b","c"] : List String)
      ∈ identify_scc ⟨["a","b","c","d"], [("a","b"),("b","c"),("c","a")]⟩ := by
    rw [identify_scc_spec.2]
    exact List.mem_cons_self _ _
  exact (identify_scc_spec.1 _).2.2.1 ["a","b","c"] hC "a" (by decide) "b"

/-! ## `algoritmosReq2/similarity_classical.py`

Python strings are modelled as `List Char`; Python floats as `ℚ`. -/

/-- A Python string, as a list of characters. -/
abbrev PyStr := List Char

/-- `str.lower`, restricted to the alphabet relevant to this code base
(ASCII letters plus the Spanish uppercase vowels/Ñ/Ü that survive
`limpiarTexto`'s character class). -/
def pyToLower (c : Char) : Char :=
  if 'A' ≤ c ∧ c ≤ 'Z' then Char.ofNat (c.toNat + 32)
  else if c = 'Á' then 'á'
  else if c = 'É' then 'é'
  else if c = 'Í' then 'í'
  else if c = 'Ó' then 'ó'
  else if c = 'Ú' then 'ú'
  else if c = 'Ü' then 'ü'
  else if c = 'Ñ' then 'ñ'
  else c

/-- Python's `\s` / `str.strip` whitespace. -/
def pyIsSpace (c : Char) : Bool :=
  c == ' ' || c == '\t' || c == '\n' || c == '\r' || c == '\x0b' || c == '\x0c'

/-- The character class `[a-záéíóúüñ0-9]` of `limpiarTexto` and `_tokens`. -/
def isTokenChar (c : Char) : Bool :=
  ('a' ≤ c && c ≤ 'z') || ('0' ≤ c && c ≤ '9') ||
  c == 'á' || c == 'é' || c == 'í' || c == 'ó' || c == 'ú' || c == 'ü' || c == 'ñ'

/-- `str.strip`: drop leading and trailing whitespace. -/
def pyStrip (l : PyStr) : PyStr :=
  (((l.dropWhile pyIsSpace).reverse).dropWhile pyIsSpace).reverse

/-- `similarity_classical.limpiarTexto`: lowercase, delete every character
outside `[a-záéíóúüñ0-9\s]`, strip. -/
def limpiarTexto (t : PyStr) : PyStr :=
  pyStrip ((t.map pyToLower).filter (fun c => isTokenChar c || pyIsSpace c))

/-- Maximal runs of characters satisfying `keep`
(`re.findall(r"[...]+", s)`). -/
def runsBy (keep : Char → Bool) : PyStr → List PyStr
  | [] => []
  | c :: rest =>
    if keep c then
      match rest, runsBy keep rest with
      | [], _ => [[c]]
      | d :: _, rs =>
          if keep d then (c :: rs.headD []) :: rs.tail else [c] :: rs
    else runsBy keep rest

/-- The stopword set of `similarity_classical.STOPWORDS`. -/
def STOPWORDS : Finset String :=
  (["el","la","los","las","un","una","unos","unas","de","del","al","y","o",
    "u","que","en","con","por","para","como","es","son","se","su","sus","a",
    "e","no","si","sí","lo","las","les","le","ya","muy","más","menos",
    "entre","sobre","también","pero","sin","hasta","desde","donde","cuando",
    "cual","cuales","porque","qué","cuál","cuáles",
    "the","a","an","and","or","but","if","in","on","at","for","of","to",
    "from","by","with","as","is","are","was","were","be","been","being",
    "it","its","this","that","these","those","we","you","they","he","she",
    "i","their","our","your","not","no","yes","do","does","did","can",
    "could","should","would","may","might","than","then","there","here",
    "also","more","most","less"]).toFinset

/-- `similarity_classical._tokens`: word tokens of the cleaned text, minus
stopwords, as a set. -/
def pyTokens (t : PyStr) : Finset String :=
  if t = [] then ∅
  else ((runsBy isTokenChar (limpiarTexto t)).map (fun r => String.mk r)).toFinset.filter
        (fun w => w ∉ STOPWORDS)

/-- `set(limpiarTexto(texto).split())`: the raw-token fallback sets. -/
def rawTokenSet (t : PyStr) : Finset String :=
  ((runsBy (fun c => !pyIsSpace c) (limpiarTexto t)).map (fun r => String.mk r)).toFinset

/-- Levenshtein edit distance, the semantics of `Levenshtein.distance`. -/
def levDist : PyStr → PyStr → Nat
  | [], t => t.length
  | s, [] => s.length
  | a :: s, b :: t =>
    if a = b then levDist s t
    else 1 + min (levDist (a :: s) t) (min (levDist s (b :: t)) (levDist s t))
termination_by s t => s.length + t.length
decreasing_by all_goals simp_wf <;> omega

/-- Python's `round` to an integer, half-to-even. -/
def roundHalfEven (q : ℚ) : ℤ :=
  let f := ⌊q⌋
  let r := q - f
  if r < 1/2 then f
  else if 1/2 < r then f + 1
  else if f % 2 = 0 then f else f + 1

/-- Python's `round(q, 3)`. -/
def pyRound3 (q : ℚ) : ℚ := (roundHalfEven (q * 1000) : ℚ) / 1000

/-- `similarity_classical.levenshtein_similarity`. -/
def levenshtein_similarity (t1 t2 : PyStr) : ℚ :=
  if t1 = [] ∨ t2 = [] then 0
  else
    let maxLen : ℚ := max t1.length t2.length
    if maxLen = 0 then 1
    else pyRound3 (1 - (levDist t1 t2 : ℚ) / maxLen)

/-- `similarity_classical.jaccard_similarity` (with raw-token fallback). -/
def jaccard_similarity (t1 t2 : PyStr) : ℚ :=
  let a := pyTokens t1
  let b := pyTokens t2
  if a = ∅ ∨ b = ∅ then 0
  else if (a ∪ b).card = 0 then 0
  else
    let j : ℚ := ((a ∩ b).card : ℚ) / ((a ∪ b).card : ℚ)
    if 0 < j then j
    else
      let r1 := rawTokenSet t1
      let r2 := rawTokenSet t2
      if r1 = ∅ ∨ r2 = ∅ then 0
      else if (r1 ∪ r2).card = 0 then 0
      else ((r1 ∩ r2).card : ℚ) / ((r1 ∪ r2).card : ℚ)

/-- `similarity_classical.dice_similarity` (with raw-token fallback). -/
def dice_similarity (t1 t2 : PyStr) : ℚ :=
  let a := pyTokens t1
  let b := pyTokens t2
  if a = ∅ ∨ b = ∅ then 0
  else
    let d : ℚ := if a.card + b.card = 0 then 0
      else (2 * ((a ∩ b).card : ℚ)) / ((a.card : ℚ) + (b.card : ℚ))
    if 0 < d then d
    else
      let r1 := rawTokenSet t1
      let r2 := rawTokenSet t2
      if r1 = ∅ ∨ r2 = ∅ then 0
      else if r1.card + r2.card = 0 then 0
      else (2 * ((r1 ∩ r2).card : ℚ)) / ((r1.card : ℚ) + (r2.card : ℚ))

/-- `similarity_classical.overlap_coefficient` (no fallback in the code). -/
def overlap_coefficient (t1 t2 : PyStr) : ℚ :=
  let a := pyTokens t1
  let b := pyTokens t2
  if a = ∅ ∨ b = ∅ then 0
  else if min a.card b.card = 0 then 0
  else ((a ∩ b).card : ℚ) / (min a.card b.card : ℚ)

/-- `similarity_classical._char_ngrams`. -/
def char_ngrams (s : PyStr) (n : Nat) : Finset String :=
  if s = [] then ∅
  else
    let n' := max 1 n
    let s' := (pyStrip s).map pyToLower
    if s'.length < n' then {String.mk s'}
    else ((List.range (s'.length - n' + 1)).map
      (fun i => String.mk ((s'.drop i).take n'))).toFinset

/-- `similarity_classical.jaccard_char_ngrams` (default `n = 3`). -/
def jaccard_char_ngrams (t1 t2 : PyStr) (n : Nat) : ℚ :=
  let a := char_ngrams t1 n
  let b := char_ngrams t2 n
  if a = ∅ ∨ b = ∅ then 0
  else if (a ∪ b).card = 0 then 0
  else ((a ∩ b).card : ℚ) / ((a ∪ b).card : ℚ)

/-- `similarity_classical.dice_char_ngrams` (default `n = 3`). -/
def dice_char_ngrams (t1 t2 : PyStr) (n : Nat) : ℚ :=
  let a := char_ngrams t1 n
  let b := char_ngrams t2 n
  if a = ∅ ∨ b = ∅ then 0
  else (2 * ((a ∩ b).card : ℚ)) / ((a.card : ℚ) + (b.card : ℚ))

/-- Matching state of `_jaro_distance`'s first loop: the two flag arrays and
the number of matches. -/
structure JaroMatch where
  h1 : List Bool
  h2 : List Bool
  m : Nat

/-- The window `range(max(0, i - max_dist), min(i + max_dist + 1, len2))` of
`_jaro_distance` (with `max_dist` computed in `ℤ`, as in Python, since it can
be negative). -/
def jaroWindow (len1 len2 i : Nat) : List Nat :=
  let maxDist : Int := (max len1 len2 : Int) / 2 - 1
  let start : Nat := (max 0 ((i : Int) - maxDist)).toNat
  let stop : Nat := (min ((i : Int) + maxDist + 1) (len2 : Int)).toNat
  List.range' start (stop - start)

/-- One iteration of `_jaro_distance`'s matching loop: find the first unused
`j` in the window with `s1[i] == s2[j]` and flag it. -/
def jaroStep (s1 s2 : PyStr) (st : JaroMatch) (i : Nat) : JaroMatch :=
  match (jaroWindow s1.length s2.length i).find?
      (fun j => !(st.h2.getD j true) && (s2.getD j ' ' == s1.getD i ' ')) with
  | some j => ⟨st.h1.set i true, st.h2.set j true, st.m + 1⟩
  | none => st

/-- The matching loop over `i in range(len1)`. -/
def jaroGo (s1 s2 : PyStr) : List Nat → JaroMatch → JaroMatch
  | [], st => st
  | i :: rest, st => jaroGo s1 s2 rest (jaroStep s1 s2 st i)

def jaroLoop1 (s1 s2 : PyStr) : JaroMatch :=
  jaroGo s1 s2 (List.range s1.length)
    ⟨List.replicate s1.length false, List.replicate s2.length false, 0⟩

/-- `while not hash_s2[point]: point += 1`: the next flagged index. -/
def nextTrue (h2 : List Bool) (p : Nat) : Nat :=
  p + (h2.drop p).findIdx (fun b => b)

/-- The transposition-counting loop of `_jaro_distance`, walking the matched
characters of `s1` (pairs with a `true` flag) against the flagged positions
of `s2` in order. -/
def jaroTransGo (s2 : PyStr) (h2 : List Bool) : List (Char × Bool) → Nat → Nat → Nat
  | [], _, t => t
  | (c, flag) :: rest, point, t =>
      if flag then
        let p := nextTrue h2 point
        jaroTransGo s2 h2 rest (p + 1) (if s2.getD p ' ' == c then t else t + 1)
      else jaroTransGo s2 h2 rest point t

def jaroTrans (s1 s2 : PyStr) (h1 h2 : List Bool) : Nat :=
  jaroTransGo s2 h2 (s1.zip h1) 0 0

/-- `similarity_classical._jaro_distance`. -/
def jaro_distance (s1 s2 : PyStr) : ℚ :=
  if s1 = s2 then 1
  else if s1.length = 0 ∨ s2.length = 0 then 0
  else
    let st := jaroLoop1 s1 s2
    if st.m = 0 then 0
    else
      let t : ℚ := (jaroTrans s1 s2 st.h1 st.h2 : ℚ) / 2
      ((st.m : ℚ) / (s1.length : ℚ) + (st.m : ℚ) / (s2.length : ℚ)
        + ((st.m : ℚ) - t) / (st.m : ℚ)) / 3

/-- Common-prefix length over zipped pairs, with `break` semantics. -/
def commonPrefixLen : List (Char × Char) → Nat
  | [] => 0
  | (a, b) :: rest => if a = b then 1 + commonPrefixLen rest else 0

/-- `similarity_classical.jaro_winkler_similarity` with the default
`p = 0.1`: strip and lowercase both inputs, add the common-prefix boost
(prefix capped at 4). -/
def jaro_winkler_similarity (t1 t2 : PyStr) : ℚ :=
  let s1 := (pyStrip t1).map pyToLower
  let s2 := (pyStrip t2).map pyToLower
  let jaro := jaro_distance s1 s2
  let l : ℚ := (commonPrefixLen ((s1.take 4).zip (s2.take 4)) : ℚ)
  jaro + l * (1/10) * (1 - jaro)

/-- Sum of pointwise minima (`np.minimum(v1, v2).sum()`). -/
def sumMin (v1 v2 : List ℚ) : ℚ := (List.zipWith min v1 v2).sum

/-- Sum of pointwise maxima (`np.maximum(v1, v2).sum()`). -/
def sumMax (v1 v2 : List ℚ) : ℚ := (List.zipWith max v1 v2).sum

/-- The `Σ min / Σ max` ratio of `weighted_jaccard_tfidf` over one vector
pair. -/
def weightedJaccardRatio (v1 v2 : List ℚ) : ℚ :=
  if sumMax v1 v2 = 0 then 0 else sumMin v1 v2 / sumMax v1 v2

/-- `similarity_classical.weighted_jaccard_tfidf`, with the TF-IDF row pairs
that scikit-learn would produce (word-level vectors `vw`, then the char
3-gram and 2-gram fallbacks `v3`, `v2`) taken as parameters: the first pair
with a positive denominator wins, else 0.0. -/
def weighted_jaccard_tfidf (vw v3 v2 : List ℚ × List ℚ) : ℚ :=
  if sumMax vw.1 vw.2 ≠ 0 then weightedJaccardRatio vw.1 vw.2
  else if 0 < sumMax v3.1 v3.2 then weightedJaccardRatio v3.1 v3.2
  else if 0 < sumMax v2.1 v2.2 then weightedJaccardRatio v2.1 v2.2
  else 0

/-- Dot product of two vectors (`cosine_similarity` numerator). -/
def dotL (v1 v2 : List ℚ) : ℚ := (List.zipWith (fun a b => a * b) v1 v2).sum

/-- Sum of squares of a vector. -/
def sumSq (v : List ℚ) : ℚ := (v.map (fun x => x * x)).sum

/-- Model of `sklearn.metrics.pairwise.cosine_similarity` on two TF-IDF rows
(`cosine_tfidf_similarity` / `cosine_tfidf_char`): `TfidfVectorizer`
L2-normalises its rows, and the cosine of normalised rows is their dot
product; a zero row (empty overlap with the vocabulary) yields 0. -/
def cosine_tfidf_similarity (u v : List ℚ) : ℚ := dotL u v

theorem pyToLower_space {c : Char} (h : pyIsSpace c = true) : pyToLower c = c := by
  simp only [pyIsSpace, Bool.or_eq_true, beq_iff_eq] at h
  rcases h with ((((h | h) | h) | h) | h) | h <;> subst h <;> decide

theorem pyIsSpace_pyToLower {c : Char} (h : pyIsSpace c = true) :
    pyIsSpace (pyToLower c) = true := by
  rw [pyToLower_space h]
  exact h

theorem dropWhile_all_iff (p : Char → Bool) (l : PyStr) :
    (∀ c ∈ l.dropWhile p, p c) ↔ ∀ c ∈ l, p c := by
  constructor
  · intro h c hc
    rcases List.mem_append.mp ((List.takeWhile_append_dropWhile p l) ▸ hc)
      with h' | h'
    · exact List.mem_takeWhile_imp h'
    · exact h c h'
  · intro h c hc
    exact h c ((List.dropWhile_sublist p).subset hc)

theorem pyStrip_eq_nil_iff (l : PyStr) : pyStrip l = [] ↔ ∀ c ∈ l, pyIsSpace c := by
  unfold pyStrip
  rw [List.reverse_eq_nil_iff, List.dropWhile_eq_nil_iff]
  constructor
  · intro h
    rw [← dropWhile_all_iff pyIsSpace l]
    intro c hc
    exact h c (List.mem_reverse.mpr hc)
  · intro h c hc
    exact (dropWhile_all_iff pyIsSpace l).mpr h c (List.mem_reverse.mp hc)

theorem limpiarTexto_of_ws {t : PyStr} (h : ∀ c ∈ t, pyIsSpace c) :
    limpiarTexto t = [] := by
  unfold limpiarTexto
  rw [pyStrip_eq_nil_iff]
  intro c hc
  rcases List.mem_filter.mp hc with ⟨hmem, _⟩
  rcases List.mem_map.mp hmem with ⟨d, hd, rfl⟩
  exact pyIsSpace_pyToLower (h d hd)

theorem pyTokens_of_ws {t : PyStr} (h : ∀ c ∈ t, pyIsSpace c) :
    pyTokens t = ∅ := by
  unfold pyTokens
  by_cases ht : t = []
  · rw [if_pos ht]
  · rw [if_neg ht, limpiarTexto_of_ws h]
    rfl

theorem levDist_self : ∀ s : PyStr, levDist s s = 0
  | [] => by simp [levDist]
  | a :: s => by
    simp only [levDist, if_pos rfl]
    exact levDist_self s

theorem pyRound3_one : pyRound3 1 = 1 := by
  have h1 : roundHalfEven ((1 : ℚ) * 1000) = 1000 := by
    unfold roundHalfEven
    norm_num
  rw [pyRound3, h1]
  norm_num

theorem char_ngrams_ne_empty {s : PyStr} (hs : s ≠ []) (n : Nat) :
    char_ngrams s n ≠ ∅ := by
  unfold char_ngrams
  rw [if_neg hs]
  by_cases hlen : ((pyStrip s).map pyToLower).length < max 1 n
  · rw [if_pos hlen]
    exact Finset.singleton_ne_empty _
  · rw [if_neg hlen]
    push_neg at hlen
    intro hempty
    have h0 : (0 : Nat) ∈ List.range (((pyStrip s).map pyToLower).length - max 1 n + 1) := by
      rw [List.mem_range]
      omega
    have : String.mk ((((pyStrip s).map pyToLower).drop 0).take (max 1 n))
        ∈ (((List.range (((pyStrip s).map pyToLower).length - max 1 n + 1))).map
            (fun i => String.mk ((((pyStrip s).map pyToLower).drop i).take (max 1 n)))).toFinset := by
      rw [List.mem_toFinset]
      exact List.mem_map.mpr ⟨0, h0, rfl⟩
    rw [hempty] at this
    exact absurd this (Finset.not_mem_empty _)

/-- C6 (amended): every non-empty string is perfectly similar to itself
under `levenshtein`, `jaccard_char`, `dice_char` and `jaro_winkler`; for
`jaccard` and `dice` this additionally requires some token to survive
cleaning and stopword removal — a non-empty all-stopword (or all-punctuation)
string scores 0.0 against itself, see the counterexample. -/
theorem metric_self_one :
    (∀ s : PyStr, s ≠ [] →
      levenshtein_similarity s s = 1 ∧
      jaccard_char_ngrams s s 3 = 1 ∧
      dice_char_ngrams s s 3 = 1 ∧
      jaro_winkler_similarity s s = 1) ∧
    (∀ s : PyStr, pyTokens s ≠ ∅ →
      jaccard_similarity s s = 1 ∧ dice_similarity s s = 1) := by
  constructor
  · intro s hs
    have hlen : ((s.length : ℚ)) ≠ 0 := by
      simp only [ne_eq, Nat.cast_eq_zero, List.length_eq_zero]
      exact hs
    have ha : char_ngrams s 3 ≠ ∅ := char_ngrams_ne_empty hs 3
    have hcard : ((char_ngrams s 3).card : ℚ) ≠ 0 := by
      simp only [ne_eq, Nat.cast_eq_zero, Finset.card_eq_zero]
      exact ha
    refine ⟨?_, ?_, ?_, ?_⟩
    · simp only [levenshtein_similarity, hs, or_self, if_false, max_self, levDist_self]
      rw [if_neg hlen]
      norm_num [pyRound3_one]
    · simp only [jaccard_char_ngrams, Finset.union_self, Finset.inter_self]
      rw [if_neg (by simp [ha]), if_neg (by exact_mod_cast hcard), div_self hcard]
    · simp only [dice_char_ngrams, Finset.inter_self]
      rw [if_neg (by simp [ha])]
      rw [show ((char_ngrams s 3).card : ℚ) + ((char_ngrams s 3).card : ℚ)
          = 2 * ((char_ngrams s 3).card : ℚ) by ring]
      rw [mul_div_mul_left _ _ (by norm_num : (2:ℚ) ≠ 0), div_self hcard]
    · have hj : jaro_distance ((pyStrip s).map pyToLower) ((pyStrip s).map pyToLower) = 1 := by
        unfold jaro_distance
        rw [if_pos rfl]
      simp only [jaro_winkler_similarity, hj]
      ring
  · intro s hs
    have hcard : ((pyTokens s).card : ℚ) ≠ 0 := by
      simp only [ne_eq, Nat.cast_eq_zero, Finset.card_eq_zero]
      exact hs
    constructor
    · simp only [jaccard_similarity, Finset.union_self, Finset.inter_self]
      rw [if_neg (by simp [hs]), if_neg (by exact_mod_cast hcard), div_self hcard,
        if_pos one_pos]
    · simp only [dice_similarity, Finset.inter_self]
      rw [if_neg (by simp [hs])]
      have hsum : (pyTokens s).card + (pyTokens s).card ≠ 0 := by
        simp only [ne_eq, Nat.add_eq_zero, Finset.card_eq_zero, not_and]
        intro h
        exact absurd h hs
      rw [if_neg hsum]
      rw [show ((pyTokens s).card : ℚ) + ((pyTokens s).card : ℚ)
          = 2 * ((pyTokens s).card : ℚ) by ring]
      rw [mul_div_mul_left _ _ (by norm_num : (2:ℚ) ≠ 0), div_self hcard, if_pos one_pos]

set_option maxRecDepth 8192

/-- C6 counterexample: `"the"` is non-empty but is a single stopword, so the
depurated token set is empty and both `jaccard_similarity` and
`dice_similarity` return 0.0 on the pair `("the", "the")`, not 1.0. -/
theorem jaccard_self_stopword_counterexample :
    ("the".toList ≠ ([] : PyStr)) ∧
    pyTokens "the".toList = ∅ ∧
    jaccard_similarity "the".toList "the".toList = 0 ∧
    dice_similarity "the".toList "the".toList = 0 := by
  have h : pyTokens "the".toList = ∅ := by decide
  refine ⟨by decide, h, ?_, ?_⟩
  · simp only [jaccard_similarity]
    rw [if_pos (Or.inl h)]
  · simp only [dice_similarity]
    rw [if_pos (Or.inl h)]

/-- Witness for `metric_self_one` at `s = "ab"`. -/
theorem metric_self_one_witness :
    levenshtein_similarity "ab".toList "ab".toList = 1 ∧
    jaro_winkler_similarity "ab".toList "ab".toList = 1 ∧
    jaccard_similarity "ab".toList "ab".toList = 1 := by
  have h1 := metric_self_one.1 "ab".toList (by decide)
  have h2 := metric_self_one.2 "ab".toList (by decide)
  exact ⟨h1.1, h1.2.2.2, h2.1⟩

/-- C7 (amended): with at least one empty-or-whitespace-only input the
token-set metrics (`jaccard`, `dice`, `overlap`) return 0.0 — in particular
`jaccard("", t) = dice("", t) = 0.0` for every `t`; `levenshtein` and the
char-n-gram metrics return 0.0 whenever an input is the *empty* string, and
`jaro_winkler` returns 0.0 when exactly one input strips to empty; but when
both inputs are empty-or-whitespace-only, `jaro_winkler` (and, on non-empty
inputs, the char-n-gram metrics) return 1.0 instead of 0.0.  All metrics are
total (never raise). -/
theorem similarity_empty_input_spec :
    (∀ t1 t2 : PyStr, (∀ c ∈ t1, pyIsSpace c) ∨ (∀ c ∈ t2, pyIsSpace c) →
      jaccard_similarity t1 t2 = 0 ∧ dice_similarity t1 t2 = 0 ∧
      overlap_coefficient t1 t2 = 0) ∧
    (∀ t : PyStr,
      levenshtein_similarity [] t = 0 ∧ levenshtein_similarity t [] = 0 ∧
      jaccard_char_ngrams [] t 3 = 0 ∧ jaccard_char_ngrams t [] 3 = 0 ∧
      dice_char_ngrams [] t 3 = 0 ∧ dice_char_ngrams t [] 3 = 0) ∧
    (∀ t1 t2 : PyStr, (∀ c ∈ t1, pyIsSpace c) → ¬(∀ c ∈ t2, pyIsSpace c) →
      jaro_winkler_similarity t1 t2 = 0 ∧ jaro_winkler_similarity t2 t1 = 0) ∧
    (∀ t1 t2 : PyStr, (∀ c ∈ t1, pyIsSpace c) → (∀ c ∈ t2, pyIsSpace c) →
      jaro_winkler_similarity t1 t2 = 1 ∧
      (t1 ≠ [] → t2 ≠ [] →
        jaccard_char_ngrams t1 t2 3 = 1 ∧ dice_char_ngrams t1 t2 3 = 1)) := by
  have hng : ∀ t : PyStr, (∀ c ∈ t, pyIsSpace c) → t ≠ [] →
      char_ngrams t 3 = {String.mk []} := by
    intro t hws ht
    have hstrip : pyStrip t = [] := (pyStrip_eq_nil_iff t).mpr hws
    simp only [char_ngrams, if_neg ht, hstrip, List.map_nil, List.length_nil]
    rw [if_pos (by norm_num)]
  refine ⟨?_, ?_, ?_, ?_⟩
  · intro t1 t2 hws
    have hempty : pyTokens t1 = ∅ ∨ pyTokens t2 = ∅ := by
      rcases hws with h | h
      · exact Or.inl (pyTokens_of_ws h)
      · exact Or.inr (pyTokens_of_ws h)
    refine ⟨?_, ?_, ?_⟩
    · simp only [jaccard_similarity]
      rw [if_pos hempty]
    · simp only [dice_similarity]
      rw [if_pos hempty]
    · simp only [overlap_coefficient]
      rw [if_pos hempty]
  · intro t
    have hca : char_ngrams ([] : PyStr) 3 = ∅ := by
      simp [char_ngrams]
    refine ⟨?_, ?_, ?_, ?_, ?_, ?_⟩
    · simp [levenshtein_similarity]
    · simp [levenshtein_similarity]
    · simp [jaccard_char_ngrams, hca]
    · simp [jaccard_char_ngrams, hca]
    · simp [dice_char_ngrams, hca]
    · simp [dice_char_ngrams, hca]
  · intro t1 t2 h1 h2
    have hs1 : (pyStrip t1).map pyToLower = [] := by
      rw [(pyStrip_eq_nil_iff t1).mpr h1]
      rfl
    have hs2 : (pyStrip t2).map pyToLower ≠ [] := by
      simp only [ne_eq, List.map_eq_nil_iff]
      rw [pyStrip_eq_nil_iff]
      exact h2
    constructor
    · have hj : jaro_distance ((pyStrip t1).map pyToLower) ((pyStrip t2).map pyToLower) = 0 := by
        unfold jaro_distance
        rw [if_neg (by rw [hs1]; exact fun h => hs2 h.symm)]
        rw [if_pos (Or.inl (by rw [hs1]; rfl))]
      have hl : ((((pyStrip t1).map pyToLower).take 4).zip
          (((pyStrip t2).map pyToLower).take 4)) = [] := by
        rw [hs1]
        rfl
      simp only [jaro_winkler_similarity, hj, hl, commonPrefixLen]
      norm_num
    · have hj : jaro_distance ((pyStrip t2).map pyToLower) ((pyStrip t1).map pyToLower) = 0 := by
        unfold jaro_distance
        rw [if_neg (by rw [hs1]; exact hs2)]
        rw [if_pos (Or.inr (by rw [hs1]; rfl))]
      have hl : ((((pyStrip t2).map pyToLower).take 4).zip
          (((pyStrip t1).map pyToLower).take 4)) = [] := by
        rw [hs1]
        simp
      simp only [jaro_winkler_similarity, hj, hl, commonPrefixLen]
      norm_num
  · intro t1 t2 h1 h2
    have hs1 : (pyStrip t1).map pyToLower = [] := by
      rw [(pyStrip_eq_nil_iff t1).mpr h1]
      rfl
    have hs2 : (pyStrip t2).map pyToLower = [] := by
      rw [(pyStrip_eq_nil_iff t2).mpr h2]
      rfl
    constructor
    · have hj : jaro_distance ((pyStrip t1).map pyToLower) ((pyStrip t2).map pyToLower) = 1 := by
        unfold jaro_distance
        rw [if_pos (by rw [hs1, hs2])]
      simp only [jaro_winkler_similarity, hj]
      ring
    · intro ht1 ht2
      rw [jaccard_char_ngrams, dice_char_ngrams, hng t1 h1 ht1, hng t2 h2 ht2]
      constructor
      · rw [if_neg (by simp), Finset.union_self, Finset.inter_self]
        rw [if_neg (by simp), div_self (by simp)]
      · rw [if_neg (by simp), Finset.inter_self]
        simp only [Finset.card_singleton]
        norm_num

/-- C7 counterexample: on the pair of empty strings `jaro_winkler_similarity`
returns 1.0, not 0.0 (`_jaro_distance` short-circuits on `s1 == s2` before
the empty-length check). -/
theorem jaro_winkler_empty_counterexample :
    jaro_winkler_similarity ([] : PyStr) ([] : PyStr) = 1 ∧ (1 : ℚ) ≠ 0 := by
  constructor
  · exact (similarity_empty_input_spec.2.2.2 [] [] (by decide) (by decide)).1
  · norm_num

/-- Witness for `similarity_empty_input_spec` at concrete strings. -/
theorem similarity_empty_input_spec_witness :
    jaccard_similarity " ".toList "x".toList = 0 ∧
    dice_similarity [] "x".toList = 0 ∧
    levenshtein_similarity [] "x".toList = 0 ∧
    jaro_winkler_similarity " ".toList "x".toList = 0 ∧
    jaro_winkler_similarity " ".toList " ".toList = 1 ∧
    jaccard_char_ngrams " ".toList " ".toList 3 = 1 := by
  have h1 := similarity_empty_input_spec.1 " ".toList "x".toList (Or.inl (by decide))
  have h2 := similarity_empty_input_spec.1 [] "x".toList (Or.inl (by decide))
  have h3 := similarity_empty_input_spec.2.1 "x".toList
  have h4 := similarity_empty_input_spec.2.2.1 " ".toList "x".toList (by decide) (by decide)
  have h5 := similarity_empty_input_spec.2.2.2 " ".toList " ".toList (by decide) (by decide)
  exact ⟨h1.1, h2.2.1, h3.1, h4.1, h5.1, (h5.2 (by decide) (by decide)).1⟩

theorem levDist_le : ∀ s t : PyStr, levDist s t ≤ max s.length t.length
  | [], t => by simp [levDist]
  | a :: s, [] => by simp [levDist]
  | a :: s, b :: t => by
    simp only [levDist, List.length_cons]
    have h3 := levDist_le s t
    by_cases h : a = b
    · rw [if_pos h]
      omega
    · rw [if_neg h]
      omega
termination_by s t => s.length + t.length
decreasing_by all_goals (simp_wf; omega)

theorem roundHalfEven_bounds {x : ℚ} (h0 : 0 ≤ x) (h1 : x ≤ 1000) :
    0 ≤ roundHalfEven x ∧ roundHalfEven x ≤ 1000 := by
  unfold roundHalfEven
  have hf0 : (0:ℤ) ≤ ⌊x⌋ := Int.floor_nonneg.mpr h0
  have hf1 : ⌊x⌋ ≤ 1000 := by
    calc ⌊x⌋ ≤ ⌊(1000:ℚ)⌋ := Int.floor_le_floor h1
      _ = 1000 := by norm_num
  by_cases hc1 : x - ⌊x⌋ < 1/2
  · rw [if_pos hc1]
    exact ⟨hf0, hf1⟩
  · rw [if_neg hc1]
    have hlt : ⌊x⌋ < 1000 := by
      rcases lt_or_eq_of_le hf1 with h | h
      · exact h
      · exfalso
        apply hc1
        have hx : (1000:ℚ) ≤ x := by
          have := Int.floor_le x
          rw [h] at this
          push_cast at this
          linarith
        have hx1000 : x = 1000 := le_antisymm h1 hx
        rw [hx1000]
        norm_num
    by_cases hc2 : 1/2 < x - ⌊x⌋
    · rw [if_pos hc2]
      omega
    · rw [if_neg hc2]
      by_cases hc3 : ⌊x⌋ % 2 = 0
      · rw [if_pos hc3]
        omega
      · rw [if_neg hc3]
        omega

theorem pyRound3_mem_unit {q : ℚ} (h0 : 0 ≤ q) (h1 : q ≤ 1) :
    0 ≤ pyRound3 q ∧ pyRound3 q ≤ 1 := by
  have hb := @roundHalfEven_bounds (q * 1000) (by positivity) (by linarith)
  unfold pyRound3
  constructor
  · apply div_nonneg _ (by norm_num)
    exact_mod_cast hb.1
  · rw [div_le_one (by norm_num)]
    exact_mod_cast hb.2

/-- A ratio of naturals with numerator at most denominator lies in `[0,1]`. -/
theorem natRatio_mem {a b : ℕ} (hab : a ≤ b) (hb : b ≠ 0) :
    0 ≤ (a:ℚ)/(b:ℚ) ∧ (a:ℚ)/(b:ℚ) ≤ 1 := by
  have hbq : (0:ℚ) < b := by exact_mod_cast Nat.pos_of_ne_zero hb
  exact ⟨div_nonneg (by positivity) hbq.le, (div_le_one hbq).mpr (by exact_mod_cast hab)⟩

theorem levenshtein_similarity_mem (t1 t2 : PyStr) :
    0 ≤ levenshtein_similarity t1 t2 ∧ levenshtein_similarity t1 t2 ≤ 1 := by
  unfold levenshtein_similarity
  by_cases hemp : t1 = [] ∨ t2 = []
  · rw [if_pos hemp]
    norm_num
  · rw [if_neg hemp]
    by_cases hz : (max (t1.length : ℚ) (t2.length : ℚ)) = 0
    · rw [if_pos hz]
      norm_num
    · rw [if_neg hz]
      have hmax : (max (t1.length : ℚ) (t2.length : ℚ)) = ((max t1.length t2.length : ℕ) : ℚ) := by
        push_cast
        rfl
      have hpos : (0:ℚ) < ((max t1.length t2.length : ℕ) : ℚ) := by
        rcases lt_or_eq_of_le (Nat.cast_nonneg (max t1.length t2.length) : (0:ℚ) ≤ _) with h | h
        · exact h
        · exact absurd (hmax.trans h.symm) hz
      have hd := levDist_le t1 t2
      have hfrac : 0 ≤ ((levDist t1 t2 : ℚ)) / ((max t1.length t2.length : ℕ) : ℚ) ∧
          ((levDist t1 t2 : ℚ)) / ((max t1.length t2.length : ℕ) : ℚ) ≤ 1 := by
        apply natRatio_mem hd
        exact_mod_cast hpos.ne'
      rw [hmax]
      exact pyRound3_mem_unit (by linarith [hfrac.2]) (by linarith [hfrac.1])

theorem jaccard_like_mem (a b : Finset String) (hb : (a ∪ b).card ≠ 0) :
    0 ≤ ((a ∩ b).card : ℚ) / ((a ∪ b).card : ℚ) ∧
      ((a ∩ b).card : ℚ) / ((a ∪ b).card : ℚ) ≤ 1 :=
  natRatio_mem (Finset.card_le_card
    (subset_trans Finset.inter_subset_left Finset.subset_union_left)) hb

theorem jaccard_similarity_mem (t1 t2 : PyStr) :
    0 ≤ jaccard_similarity t1 t2 ∧ jaccard_similarity t1 t2 ≤ 1 := by
  unfold jaccard_similarity
  by_cases h1 : pyTokens t1 = ∅ ∨ pyTokens t2 = ∅
  · rw [if_pos h1]; norm_num
  · rw [if_neg h1]
    by_cases h2 : (pyTokens t1 ∪ pyTokens t2).card = 0
    · rw [if_pos h2]; norm_num
    · rw [if_neg h2]
      have hj := jaccard_like_mem (pyTokens t1) (pyTokens t2) h2
      by_cases h3 : 0 < ((pyTokens t1 ∩ pyTokens t2).card : ℚ) / ((pyTokens t1 ∪ pyTokens t2).card : ℚ)
      · rw [if_pos h3]; exact hj
      · rw [if_neg h3]
        by_cases h4 : rawTokenSet t1 = ∅ ∨ rawTokenSet t2 = ∅
        · rw [if_pos h4]; norm_num
        · rw [if_neg h4]
          by_cases h5 : (rawTokenSet t1 ∪ rawTokenSet t2).card = 0
          · rw [if_pos h5]; norm_num
          · rw [if_neg h5]
            exact jaccard_like_mem _ _ h5

theorem dice_like_mem (a b : Finset String) (hb : a.card + b.card ≠ 0) :
    0 ≤ 2 * ((a ∩ b).card : ℚ) / ((a.card : ℚ) + (b.card : ℚ)) ∧
      2 * ((a ∩ b).card : ℚ) / ((a.card : ℚ) + (b.card : ℚ)) ≤ 1 := by
  have hle : 2 * (a ∩ b).card ≤ a.card + b.card := by
    have h1 : (a ∩ b).card ≤ a.card := Finset.card_le_card Finset.inter_subset_left
    have h2 : (a ∩ b).card ≤ b.card := Finset.card_le_card Finset.inter_subset_right
    omega
  have := natRatio_mem hle hb
  constructor
  · have h := this.1
    push_cast at h ⊢
    exact h
  · have h := this.2
    push_cast at h ⊢
    exact h

theorem dice_similarity_mem (t1 t2 : PyStr) :
    0 ≤ dice_similarity t1 t2 ∧ dice_similarity t1 t2 ≤ 1 := by
  unfold dice_similarity
  by_cases h1 : pyTokens t1 = ∅ ∨ pyTokens t2 = ∅
  · rw [if_pos h1]; norm_num
  · rw [if_neg h1]
    have hd : 0 ≤ (if (pyTokens t1).card + (pyTokens t2).card = 0 then (0:ℚ)
          else 2 * ((pyTokens t1 ∩ pyTokens t2).card : ℚ)
            / (((pyTokens t1).card : ℚ) + ((pyTokens t2).card : ℚ))) ∧
        (if (pyTokens t1).card + (pyTokens t2).card = 0 then (0:ℚ)
          else 2 * ((pyTokens t1 ∩ pyTokens t2).card : ℚ)
            / (((pyTokens t1).card : ℚ) + ((pyTokens t2).card : ℚ))) ≤ 1 := by
      by_cases h2 : (pyTokens t1).card + (pyTokens t2).card = 0
      · rw [if_pos h2]; norm_num
      · rw [if_neg h2]
        exact dice_like_mem _ _ h2
    by_cases h3 : 0 < (if (pyTokens t1).card + (pyTokens t2).card = 0 then (0:ℚ)
        else 2 * ((pyTokens t1 ∩ pyTokens t2).card : ℚ)
          / (((pyTokens t1).card : ℚ) + ((pyTokens t2).card : ℚ)))
    · rw [if_pos h3]; exact hd
    · rw [if_neg h3]
      by_cases h4 : rawTokenSet t1 = ∅ ∨ rawTokenSet t2 = ∅
      · rw [if_pos h4]; norm_num
      · rw [if_neg h4]
        by_cases h5 : (rawTokenSet t1).card + (rawTokenSet t2).card = 0
        · rw [if_pos h5]; norm_num
        · rw [if_neg h5]
          exact dice_like_mem _ _ h5

theorem overlap_coefficient_mem (t1 t2 : PyStr) :
    0 ≤ overlap_coefficient t1 t2 ∧ overlap_coefficient t1 t2 ≤ 1 := by
  unfold overlap_coefficient
  by_cases h1 : pyTokens t1 = ∅ ∨ pyTokens t2 = ∅
  · rw [if_pos h1]; norm_num
  · rw [if_neg h1]
    by_cases h2 : min (pyTokens t1).card (pyTokens t2).card = 0
    · rw [if_pos h2]; norm_num
    · rw [if_neg h2]
      rw [← Nat.cast_min]
      apply natRatio_mem _ h2
      have h3 : (pyTokens t1 ∩ pyTokens t2).card ≤ (pyTokens t1).card :=
        Finset.card_le_card Finset.inter_subset_left
      have h4 : (pyTokens t1 ∩ pyTokens t2).card ≤ (pyTokens t2).card :=
        Finset.card_le_card Finset.inter_subset_right
      omega

theorem jaccard_char_ngrams_mem (t1 t2 : PyStr) (n : Nat) :
    0 ≤ jaccard_char_ngrams t1 t2 n ∧ jaccard_char_ngrams t1 t2 n ≤ 1 := by
  unfold jaccard_char_ngrams
  by_cases h1 : char_ngrams t1 n = ∅ ∨ char_ngrams t2 n = ∅
  · rw [if_pos h1]; norm_num
  · rw [if_neg h1]
    by_cases h2 : (char_ngrams t1 n ∪ char_ngrams t2 n).card = 0
    · rw [if_pos h2]; norm_num
    · rw [if_neg h2]
      exact jaccard_like_mem _ _ h2

theorem dice_char_ngrams_mem (t1 t2 : PyStr) (n : Nat) :
    0 ≤ dice_char_ngrams t1 t2 n ∧ dice_char_ngrams t1 t2 n ≤ 1 := by
  unfold dice_char_ngrams
  by_cases h1 : char_ngrams t1 n = ∅ ∨ char_ngrams t2 n = ∅
  · rw [if_pos h1]; norm_num
  · rw [if_neg h1]
    have hcard : (char_ngrams t1 n).card + (char_ngrams t2 n).card ≠ 0 := by
      push_neg at h1
      simp only [Ne, Nat.add_eq_zero, Finset.card_eq_zero, not_and]
      intro h
      exact absurd h h1.1
    exact dice_like_mem _ _ hcard

/-- The matching-loop invariant of `_jaro_distance`: both flag arrays keep
their lengths and each holds exactly `m` `True` flags. -/
def JaroInv (len1 len2 : Nat) (st : JaroMatch) : Prop :=
  st.h1.length = len1 ∧ st.h2.length = len2 ∧
  st.h1.count true = st.m ∧ st.h2.count true = st.m

theorem getD_false_lt {l : List Bool} {j : Nat} {d : Bool} (hd : d = true)
    (h : l.getD j d = false) : j < l.length := by
  by_contra hge
  push_neg at hge
  rw [List.getD_eq_default _ _ hge, hd] at h
  exact Bool.noConfusion h

theorem count_set_true : ∀ (l : List Bool) (j : Nat) (d : Bool), j < l.length →
    l.getD j d = false → (l.set j true).count true = l.count true + 1
  | [], j, _, h, _ => absurd h (by simp)
  | b :: rest, 0, d, _, h0 => by
    simp only [List.getD_cons_zero] at h0
    subst h0
    simp [List.count_cons]
  | b :: rest, j+1, d, h, h0 => by
    simp only [List.getD_cons_succ] at h0
    have ih := count_set_true rest j d (by simpa using h) h0
    simp only [List.set_cons_succ, List.count_cons, ih]
    omega

theorem getD_set_ne : ∀ (l : List Bool) (i k : Nat) (v d : Bool), k ≠ i →
    (l.set i v).getD k d = l.getD k d
  | [], _, _, _, _, _ => rfl
  | b :: rest, 0, 0, v, d, h => absurd rfl h
  | b :: rest, 0, k+1, v, d, _ => by
    simp [List.set_cons_zero, List.getD_cons_succ]
  | b :: rest, i+1, 0, v, d, _ => by
    simp [List.set_cons_succ, List.getD_cons_zero]
  | b :: rest, i+1, k+1, v, d, h => by
    simp only [List.set_cons_succ, List.getD_cons_succ]
    exact getD_set_ne rest i k v d (by omega)

theorem jaroStep_inv {s1 s2 : PyStr} {st : JaroMatch} {i : Nat}
    (hinv : JaroInv s1.length s2.length st) (hi : i < s1.length)
    (hfalse : st.h1.getD i false = false) :
    JaroInv s1.length s2.length (jaroStep s1 s2 st i) ∧
    (∀ k, k ≠ i → (jaroStep s1 s2 st i).h1.getD k false = st.h1.getD k false) := by
  unfold jaroStep
  rcases hfind : (jaroWindow s1.length s2.length i).find?
      (fun j => !(st.h2.getD j true) && (s2.getD j ' ' == s1.getD i ' ')) with _ | j
  · exact ⟨hinv, fun k _ => rfl⟩
  · have hp := List.find?_some hfind
    have hj2 : st.h2.getD j true = false := by
      simp only [Bool.and_eq_true, Bool.not_eq_true'] at hp
      exact hp.1
    have hjlt : j < st.h2.length := getD_false_lt rfl hj2
    have hilt : i < st.h1.length := by rw [hinv.1]; exact hi
    refine ⟨⟨?_, ?_, ?_, ?_⟩, ?_⟩
    · simp only [List.length_set]
      exact hinv.1
    · simp only [List.length_set]
      exact hinv.2.1
    · simp only []
      rw [count_set_true st.h1 i false hilt hfalse, hinv.2.2.1]
    · simp only []
      rw [count_set_true st.h2 j true hjlt hj2, hinv.2.2.2]
    · intro k hk
      simp only []
      exact getD_set_ne st.h1 i k true false hk

theorem jaroGo_inv {s1 s2 : PyStr} :
    ∀ (l : List Nat) (st : JaroMatch),
      JaroInv s1.length s2.length st →
      (∀ i ∈ l, i < s1.length) →
      (∀ i ∈ l, st.h1.getD i false = false) →
      l.Nodup →
      JaroInv s1.length s2.length (jaroGo s1 s2 l st)
  | [], st, hinv, _, _, _ => hinv
  | i :: rest, st, hinv, hlt, hfalse, hnd => by
    simp only [jaroGo]
    have hstep := jaroStep_inv hinv (hlt i (List.mem_cons_self i rest))
      (hfalse i (List.mem_cons_self i rest))
    refine jaroGo_inv rest _ hstep.1 (fun k hk => hlt k (List.mem_cons_of_mem _ hk)) ?_
      (List.nodup_cons.mp hnd).2
    intro k hk
    rw [hstep.2 k ?_]
    · exact hfalse k (List.mem_cons_of_mem _ hk)
    · intro heq
      exact (List.nodup_cons.mp hnd).1 (heq ▸ hk)

theorem jaroLoop1_inv (s1 s2 : PyStr) : JaroInv s1.length s2.length (jaroLoop1 s1 s2) := by
  unfold jaroLoop1
  apply jaroGo_inv
  · refine ⟨List.length_replicate _ _, List.length_replicate _ _, ?_, ?_⟩ <;>
      simp [List.count_replicate]
  · intro i hi
    exact List.mem_range.mp hi
  · intro i _
    rcases lt_or_le i s1.length with h | h
    · rw [List.getD_eq_getElem _ _ (by simpa using h)]
      simp
    · rw [List.getD_eq_default _ _ (by simpa using h)]
  · exact List.nodup_range _

theorem jaroTransGo_le (s2 : PyStr) (h2 : List Bool) :
    ∀ (l : List (Char × Bool)) (point t : Nat),
      jaroTransGo s2 h2 l point t ≤ t + l.countP (fun cb => cb.2)
  | [], _, t => by simp [jaroTransGo]
  | (c, flag) :: rest, point, t => by
    by_cases hf : flag = true
    · subst hf
      have ih := jaroTransGo_le s2 h2 rest (nextTrue h2 point + 1)
        (if s2.getD (nextTrue h2 point) ' ' == c then t else t + 1)
      have hcase : (if s2.getD (nextTrue h2 point) ' ' == c then t else t + 1) ≤ t + 1 := by
        by_cases hc : s2.getD (nextTrue h2 point) ' ' == c
        · rw [if_pos hc]; omega
        · rw [if_neg hc]
      simp only [jaroTransGo, List.countP_cons, if_pos rfl]
      simp only [show (((c, true).2 : Bool) = true) = True by simp, if_true]
      omega
    · have hf0 : flag = false := Bool.eq_false_iff.mpr hf
      subst hf0
      have ih := jaroTransGo_le s2 h2 rest point t
      simp only [jaroTransGo, List.countP_cons]
      simp only [show (((c, false).2 : Bool) = true) = False by simp, if_false,
        Bool.false_eq_true, if_false]
      omega

theorem countP_zip_snd : ∀ (s : PyStr) (h : List Bool), s.length = h.length →
    (s.zip h).countP (fun cb => cb.2) = h.count true
  | [], [], _ => rfl
  | [], b :: h, hl => by simp at hl
  | a :: s, [], hl => by simp at hl
  | a :: s, b :: h, hl => by
    simp only [List.zip_cons_cons, List.countP_cons, List.count_cons]
    have ih := countP_zip_snd s h (by simpa using hl)
    rw [ih]
    by_cases hb : b = true
    · subst hb
      simp
    · have hb' : b = false := Bool.eq_false_iff.mpr hb
      subst hb'
      simp

theorem jaro_distance_mem (s1 s2 : PyStr) :
    0 ≤ jaro_distance s1 s2 ∧ jaro_distance s1 s2 ≤ 1 := by
  unfold jaro_distance
  by_cases heq : s1 = s2
  · rw [if_pos heq]
    norm_num
  · rw [if_neg heq]
    by_cases hlen : s1.length = 0 ∨ s2.length = 0
    · rw [if_pos hlen]
      norm_num
    · rw [if_neg hlen]
      push_neg at hlen
      by_cases hm : (jaroLoop1 s1 s2).m = 0
      · rw [if_pos hm]
        norm_num
      · rw [if_neg hm]
        have hinv := jaroLoop1_inv s1 s2
        have hm1 : (jaroLoop1 s1 s2).m ≤ s1.length := by
          rw [← hinv.2.2.1, ← hinv.1]
          exact List.count_le_length _ _
        have hm2 : (jaroLoop1 s1 s2).m ≤ s2.length := by
          rw [← hinv.2.2.2, ← hinv.2.1]
          exact List.count_le_length _ _
        have ht : jaroTrans s1 s2 (jaroLoop1 s1 s2).h1 (jaroLoop1 s1 s2).h2
            ≤ (jaroLoop1 s1 s2).m := by
          unfold jaroTrans
          calc jaroTransGo s2 (jaroLoop1 s1 s2).h2 (s1.zip (jaroLoop1 s1 s2).h1) 0 0
              ≤ 0 + (s1.zip (jaroLoop1 s1 s2).h1).countP (fun cb => cb.2) :=
                jaroTransGo_le _ _ _ _ _
            _ = (jaroLoop1 s1 s2).h1.count true := by
                rw [Nat.zero_add]
                exact countP_zip_snd s1 (jaroLoop1 s1 s2).h1 hinv.1.symm
            _ = (jaroLoop1 s1 s2).m := hinv.2.2.1
        have hmq : (1:ℚ) ≤ ((jaroLoop1 s1 s2).m : ℚ) := by
          exact_mod_cast Nat.one_le_iff_ne_zero.mpr hm
        have hl1 : (1:ℚ) ≤ (s1.length : ℚ) := by
          exact_mod_cast Nat.one_le_iff_ne_zero.mpr hlen.1
        have hl2 : (1:ℚ) ≤ (s2.length : ℚ) := by
          exact_mod_cast Nat.one_le_iff_ne_zero.mpr hlen.2
        have hmq1 : ((jaroLoop1 s1 s2).m : ℚ) ≤ (s1.length : ℚ) := by exact_mod_cast hm1
        have hmq2 : ((jaroLoop1 s1 s2).m : ℚ) ≤ (s2.length : ℚ) := by exact_mod_cast hm2
        have htq : (0:ℚ) ≤ (jaroTrans s1 s2 (jaroLoop1 s1 s2).h1 (jaroLoop1 s1 s2).h2 : ℚ) ∧
            (jaroTrans s1 s2 (jaroLoop1 s1 s2).h1 (jaroLoop1 s1 s2).h2 : ℚ)
              ≤ ((jaroLoop1 s1 s2).m : ℚ) := by
          constructor
          · positivity
          · exact_mod_cast ht
        have e1 : 0 ≤ ((jaroLoop1 s1 s2).m : ℚ) / (s1.length : ℚ) ∧
            ((jaroLoop1 s1 s2).m : ℚ) / (s1.length : ℚ) ≤ 1 :=
          ⟨div_nonneg (by linarith) (by linarith),
           (div_le_one (by linarith)).mpr hmq1⟩
        have e2 : 0 ≤ ((jaroLoop1 s1 s2).m : ℚ) / (s2.length : ℚ) ∧
            ((jaroLoop1 s1 s2).m : ℚ) / (s2.length : ℚ) ≤ 1 :=
          ⟨div_nonneg (by linarith) (by linarith),
           (div_le_one (by linarith)).mpr hmq2⟩
        have e3 : 0 ≤ (((jaroLoop1 s1 s2).m : ℚ)
              - (jaroTrans s1 s2 (jaroLoop1 s1 s2).h1 (jaroLoop1 s1 s2).h2 : ℚ) / 2)
              / ((jaroLoop1 s1 s2).m : ℚ) ∧
            (((jaroLoop1 s1 s2).m : ℚ)
              - (jaroTrans s1 s2 (jaroLoop1 s1 s2).h1 (jaroLoop1 s1 s2).h2 : ℚ) / 2)
              / ((jaroLoop1 s1 s2).m : ℚ) ≤ 1 := by
          constructor
          · apply div_nonneg _ (by linarith)
            linarith [htq.2]
          · rw [div_le_one (by linarith)]
            linarith [htq.1]
        constructor
        · have := e1.1
          have := e2.1
          have := e3.1
          linarith
        · have := e1.2
          have := e2.2
          have := e3.2
          linarith

theorem commonPrefixLen_le : ∀ l : List (Char × Char), commonPrefixLen l ≤ l.length
  | [] => le_refl _
  | (a, b) :: rest => by
    simp only [commonPrefixLen, List.length_cons]
    by_cases h : a = b
    · rw [if_pos h]
      have := commonPrefixLen_le rest
      omega
    · rw [if_neg h]
      omega

theorem jaro_winkler_similarity_mem (t1 t2 : PyStr) :
    0 ≤ jaro_winkler_similarity t1 t2 ∧ jaro_winkler_similarity t1 t2 ≤ 1 := by
  unfold jaro_winkler_similarity
  have hj := jaro_distance_mem ((pyStrip t1).map pyToLower) ((pyStrip t2).map pyToLower)
  have hlnat : commonPrefixLen (((((pyStrip t1).map pyToLower)).take 4).zip
      ((((pyStrip t2).map pyToLower)).take 4)) ≤ 4 := by
    calc commonPrefixLen _ ≤ (((((pyStrip t1).map pyToLower)).take 4).zip
          ((((pyStrip t2).map pyToLower)).take 4)).length := commonPrefixLen_le _
      _ ≤ (((pyStrip t1).map pyToLower).take 4).length := by
          rw [List.length_zip]
          omega
      _ ≤ 4 := by
          rw [List.length_take]
          omega
  have hlq0 : (0:ℚ) ≤ (commonPrefixLen (((((pyStrip t1).map pyToLower)).take 4).zip
      ((((pyStrip t2).map pyToLower)).take 4)) : ℚ) := by positivity
  have hlq4 : (commonPrefixLen (((((pyStrip t1).map pyToLower)).take 4).zip
      ((((pyStrip t2).map pyToLower)).take 4)) : ℚ) ≤ 4 := by exact_mod_cast hlnat
  constructor
  · nlinarith [hj.1, hj.2]
  · nlinarith [hj.1, hj.2]

theorem sumMin_nonneg_le_sumMax : ∀ (v1 v2 : List ℚ),
    (∀ x ∈ v1, 0 ≤ x) → (∀ x ∈ v2, 0 ≤ x) →
    0 ≤ sumMin v1 v2 ∧ sumMin v1 v2 ≤ sumMax v1 v2
  | [], v2, _, _ => by simp [sumMin, sumMax]
  | a :: v1, [], _, _ => by simp [sumMin, sumMax]
  | a :: v1, b :: v2, h1, h2 => by
    have ih := sumMin_nonneg_le_sumMax v1 v2
      (fun x hx => h1 x (List.mem_cons_of_mem _ hx))
      (fun x hx => h2 x (List.mem_cons_of_mem _ hx))
    have ha : 0 ≤ a := h1 a (List.mem_cons_self _ _)
    have hb : 0 ≤ b := h2 b (List.mem_cons_self _ _)
    simp only [sumMin, sumMax, List.zipWith_cons_cons, List.sum_cons]
    constructor
    · have : (0:ℚ) ≤ min a b := le_min ha hb
      have := ih.1
      simp only [sumMin] at this
      linarith
    · have hmm : min a b ≤ max a b := min_le_max
      have := ih.2
      simp only [sumMin, sumMax] at this
      linarith

theorem weightedJaccardRatio_mem (v1 v2 : List ℚ)
    (h1 : ∀ x ∈ v1, 0 ≤ x) (h2 : ∀ x ∈ v2, 0 ≤ x) :
    0 ≤ weightedJaccardRatio v1 v2 ∧ weightedJaccardRatio v1 v2 ≤ 1 := by
  unfold weightedJaccardRatio
  by_cases hz : sumMax v1 v2 = 0
  · rw [if_pos hz]
    norm_num
  · rw [if_neg hz]
    have hb := sumMin_nonneg_le_sumMax v1 v2 h1 h2
    have hpos : 0 < sumMax v1 v2 := lt_of_le_of_ne (le_trans hb.1 hb.2) (Ne.symm hz)
    exact ⟨div_nonneg hb.1 hpos.le, (div_le_one hpos).mpr hb.2⟩

theorem weighted_jaccard_tfidf_mem (vw v3 v2 : List ℚ × List ℚ)
    (hw1 : ∀ x ∈ vw.1, 0 ≤ x) (hw2 : ∀ x ∈ vw.2, 0 ≤ x)
    (h31 : ∀ x ∈ v3.1, 0 ≤ x) (h32 : ∀ x ∈ v3.2, 0 ≤ x)
    (h21 : ∀ x ∈ v2.1, 0 ≤ x) (h22 : ∀ x ∈ v2.2, 0 ≤ x) :
    0 ≤ weighted_jaccard_tfidf vw v3 v2 ∧ weighted_jaccard_tfidf vw v3 v2 ≤ 1 := by
  unfold weighted_jaccard_tfidf
  by_cases hc1 : sumMax vw.1 vw.2 ≠ 0
  · rw [if_pos hc1]
    exact weightedJaccardRatio_mem _ _ hw1 hw2
  · rw [if_neg hc1]
    by_cases hc2 : 0 < sumMax v3.1 v3.2
    · rw [if_pos hc2]
      exact weightedJaccardRatio_mem _ _ h31 h32
    · rw [if_neg hc2]
      by_cases hc3 : 0 < sumMax v2.1 v2.2
      · rw [if_pos hc3]
        exact weightedJaccardRatio_mem _ _ h21 h22
      · rw [if_neg hc3]
        norm_num

theorem sumSq_nonneg : ∀ v : List ℚ, 0 ≤ sumSq v
  | [] => le_refl _
  | a :: v => by
    have := sumSq_nonneg v
    simp only [sumSq, List.map_cons, List.sum_cons] at *
    nlinarith

theorem dotL_nonneg : ∀ (v1 v2 : List ℚ),
    (∀ x ∈ v1, 0 ≤ x) → (∀ x ∈ v2, 0 ≤ x) → 0 ≤ dotL v1 v2
  | [], v2, _, _ => by simp [dotL]
  | a :: v1, [], _, _ => by simp [dotL]
  | a :: v1, b :: v2, h1, h2 => by
    have ih := dotL_nonneg v1 v2
      (fun x hx => h1 x (List.mem_cons_of_mem _ hx))
      (fun x hx => h2 x (List.mem_cons_of_mem _ hx))
    have ha : 0 ≤ a := h1 a (List.mem_cons_self _ _)
    have hb : 0 ≤ b := h2 b (List.mem_cons_self _ _)
    simp only [dotL, List.zipWith_cons_cons, List.sum_cons] at *
    nlinarith

theorem dotL_le_avg : ∀ (v1 v2 : List ℚ), dotL v1 v2 ≤ (sumSq v1 + sumSq v2) / 2
  | [], v2 => by
    have := sumSq_nonneg v2
    simp only [dotL, sumSq] at *
    simp
    linarith
  | a :: v1, [] => by
    have h1 := sumSq_nonneg (a :: v1)
    simp only [dotL, sumSq, List.zipWith_nil_right, List.sum_nil, List.map_cons,
      List.sum_cons, List.map_nil] at *
    linarith
  | a :: v1, b :: v2 => by
    have ih := dotL_le_avg v1 v2
    simp only [dotL, sumSq, List.zipWith_cons_cons, List.map_cons, List.sum_cons] at *
    nlinarith [sq_nonneg (a - b)]

theorem dotL_zero_left : ∀ (v1 v2 : List ℚ), (∀ x ∈ v1, x = 0) → dotL v1 v2 = 0
  | [], v2, _ => by simp [dotL]
  | a :: v1, [], _ => by simp [dotL]
  | a :: v1, b :: v2, h => by
    have ih := dotL_zero_left v1 v2 (fun x hx => h x (List.mem_cons_of_mem _ hx))
    have ha : a = 0 := h a (List.mem_cons_self _ _)
    simp only [dotL, List.zipWith_cons_cons, List.sum_cons] at *
    rw [ha, ih]
    ring

theorem dotL_zero_right : ∀ (v1 v2 : List ℚ), (∀ x ∈ v2, x = 0) → dotL v1 v2 = 0
  | [], v2, _ => by simp [dotL]
  | a :: v1, [], _ => by simp [dotL]
  | a :: v1, b :: v2, h => by
    have ih := dotL_zero_right v1 v2 (fun x hx => h x (List.mem_cons_of_mem _ hx))
    have hb : b = 0 := h b (List.mem_cons_self _ _)
    simp only [dotL, List.zipWith_cons_cons, List.sum_cons] at *
    rw [hb, ih]
    ring

theorem cosine_tfidf_similarity_mem (u v : List ℚ)
    (hu : ∀ x ∈ u, 0 ≤ x) (hv : ∀ x ∈ v, 0 ≤ x)
    (hnu : sumSq u = 1 ∨ ∀ x ∈ u, x = 0)
    (hnv : sumSq v = 1 ∨ ∀ x ∈ v, x = 0) :
    0 ≤ cosine_tfidf_similarity u v ∧ cosine_tfidf_similarity u v ≤ 1 := by
  unfold cosine_tfidf_similarity
  refine ⟨dotL_nonneg u v hu hv, ?_⟩
  rcases hnu with hnu | hzu
  · rcases hnv with hnv | hzv
    · have := dotL_le_avg u v
      rw [hnu, hnv] at this
      linarith
    · rw [dotL_zero_right u v hzv]
      norm_num
  · rw [dotL_zero_left u v hzu]
    norm_num

/-- C8: every metric of the ensemble yields a value in `[0,1]`: the
token-set metrics, levenshtein, the char-n-gram metrics (any `n`), and
jaro-winkler (whose prefix boost `jaro + l·0.1·(1−jaro)`, `l ≤ 4`, never
exceeds 1); the `Σmin/Σmax` ratio of `weighted_jaccard_tfidf` lies in
`[0,1]` for any nonnegative TF-IDF vectors, and the TF-IDF cosine of
L2-normalised (or zero) nonnegative rows likewise. -/
theorem metric_range_spec :
    (∀ t1 t2 : PyStr,
      (0 ≤ levenshtein_similarity t1 t2 ∧ levenshtein_similarity t1 t2 ≤ 1) ∧
      (0 ≤ jaccard_similarity t1 t2 ∧ jaccard_similarity t1 t2 ≤ 1) ∧
      (0 ≤ dice_similarity t1 t2 ∧ dice_similarity t1 t2 ≤ 1) ∧
      (0 ≤ overlap_coefficient t1 t2 ∧ overlap_coefficient t1 t2 ≤ 1) ∧
      (0 ≤ jaro_winkler_similarity t1 t2 ∧ jaro_winkler_similarity t1 t2 ≤ 1)) ∧
    (∀ (t1 t2 : PyStr) (n : Nat),
      (0 ≤ jaccard_char_ngrams t1 t2 n ∧ jaccard_char_ngrams t1 t2 n ≤ 1) ∧
      (0 ≤ dice_char_ngrams t1 t2 n ∧ dice_char_ngrams t1 t2 n ≤ 1)) ∧
    (∀ vw v3 v2 : List ℚ × List ℚ,
      (∀ x ∈ vw.1, 0 ≤ x) → (∀ x ∈ vw.2, 0 ≤ x) →
      (∀ x ∈ v3.1, 0 ≤ x) → (∀ x ∈ v3.2, 0 ≤ x) →
      (∀ x ∈ v2.1, 0 ≤ x) → (∀ x ∈ v2.2, 0 ≤ x) →
      0 ≤ weighted_jaccard_tfidf vw v3 v2 ∧ weighted_jaccard_tfidf vw v3 v2 ≤ 1) ∧
    (∀ u v : List ℚ,
      (∀ x ∈ u, 0 ≤ x) → (∀ x ∈ v, 0 ≤ x) →
      (sumSq u = 1 ∨ ∀ x ∈ u, x = 0) → (sumSq v = 1 ∨ ∀ x ∈ v, x = 0) →
      0 ≤ cosine_tfidf_similarity u v ∧ cosine_tfidf_similarity u v ≤ 1) := by
  refine ⟨?_, ?_, ?_, ?_⟩
  · intro t1 t2
    exact ⟨levenshtein_similarity_mem t1 t2, jaccard_similarity_mem t1 t2,
      dice_similarity_mem t1 t2, overlap_coefficient_mem t1 t2,
      jaro_winkler_similarity_mem t1 t2⟩
  · intro t1 t2 n
    exact ⟨jaccard_char_ngrams_mem t1 t2 n, dice_char_ngrams_mem t1 t2 n⟩
  · intro vw v3 v2 h1 h2 h3 h4 h5 h6
    exact weighted_jaccard_tfidf_mem vw v3 v2 h1 h2 h3 h4 h5 h6
  · intro u v h1 h2 h3 h4
    exact cosine_tfidf_similarity_mem u v h1 h2 h3 h4

/-- Witness for `metric_range_spec` at concrete inputs. -/
theorem metric_range_spec_witness :
    (0 ≤ jaro_winkler_similarity "abc".toList "abd".toList ∧
      jaro_winkler_similarity "abc".toList "abd".toList ≤ 1) ∧
    (0 ≤ weighted_jaccard_tfidf ([1, 2], [2, 1]) ([], []) ([], []) ∧
      weighted_jaccard_tfidf ([1, 2], [2, 1]) ([], []) ([], []) ≤ 1) ∧
    (0 ≤ cosine_tfidf_similarity [1] [1] ∧ cosine_tfidf_similarity [1] [1] ≤ 1) := by
  refine ⟨(metric_range_spec.1 "abc".toList "abd".toList).2.2.2.2, ?_, ?_⟩
  · apply metric_range_spec.2.2.1 ([1, 2], [2, 1]) ([], []) ([], []) <;>
      intro x hx <;> simp at hx
    · rcases hx with rfl | rfl <;> norm_num
    · rcases hx with rfl | rfl <;> norm_num
  · apply metric_range_spec.2.2.2 [1] [1]
    · intro x hx
      simp at hx
      rw [hx]
      norm_num
    · intro x hx
      simp at hx
      rw [hx]
      norm_num
    · left
      norm_num [sumSq]
    · left
      norm_num [sumSq]

/-! ## `construir_grafo_citaciones.build_citation_graph_optimized`

The TF-IDF cosine-similarity matrix of the titles (computed by scikit-learn
in the source) is taken as an explicit parameter `cos`; for two titles with
no shared word unigrams/bigrams it is 0, for identical titles 1, and it
always lies in `[0,1]` (cosine of L2-normalised nonnegative vectors). -/

/-- A parsed record of `parse_unified_file`. -/
structure BibEntry where
  bibkey : String
  btype : String
  title : String
  authors : List String
  year : String
  doi : String
  url : String
  abstract : String
  references_raw : String
  raw_entry : String
deriving DecidableEq, Inhabited

/-- Collapse each maximal whitespace run to one space (`re.sub(r'\s+',' ')`). -/
def collapseWs : PyStr → PyStr
  | [] => []
  | c :: rest =>
    if pyIsSpace c then
      match rest with
      | [] => [' ']
      | d :: _ => if pyIsSpace d then collapseWs rest else ' ' :: collapseWs rest
    else c :: collapseWs rest

/-- `construir_grafo_citaciones.normalize_text`: strip, collapse whitespace,
lowercase (empty input yields `""`). -/
def normalize_text (s : String) : String :=
  if s = "" then "" else String.mk ((collapseWs (pyStrip s.toList)).map pyToLower)

/-- `str.strip` on `String`s. -/
def pyStripStr (s : String) : String := String.mk (pyStrip s.toList)

/-- `str.replace pat rep` (all occurrences, left to right); only invoked with
the literal pattern `'doi:'`, so `pat` is never empty. -/
def replaceGo (pat rep : PyStr) : Nat → PyStr → PyStr
  | 0, s => s
  | _+1, [] => []
  | fuel+1, c :: rest =>
    if pat.isPrefixOf (c :: rest) then
      rep ++ replaceGo pat rep fuel ((c :: rest).drop pat.length)
    else c :: replaceGo pat rep fuel rest

def replaceAll (s pat rep : String) : String :=
  if pat = "" then s
  else String.mk (replaceGo pat.toList rep.toList s.toList.length s.toList)

/-- `sub` occurs as a contiguous sublist of `l`. -/
def listInfixOf : List Char → List Char → Bool
  | sub, [] => sub.isEmpty
  | sub, c :: rest => sub.isPrefixOf (c :: rest) || listInfixOf sub rest

/-- Python `sub in s` (substring containment). -/
def strContains (s sub : String) : Bool := listInfixOf sub.toList s.toList

/-- Python-dict insertion (later insertions overwrite earlier ones). -/
def dictInsert (m : List (String × String)) (k v : String) : List (String × String) :=
  if m.any (fun kv => kv.1 == k) then m.map (fun kv => if kv.1 = k then (k, v) else kv)
  else m ++ [(k, v)]

/-- The `doi_map` of `build_citation_graph_optimized`: normalised DOI (with
`doi:` removed) and normalised URL of every entry, mapped to its key. -/
def buildDoiMap (entries : List BibEntry) : List (String × String) :=
  entries.foldl (fun m e =>
    let m1 := if e.doi ≠ ""
      then dictInsert m (pyStripStr (replaceAll (normalize_text e.doi) "doi:" "")) e.bibkey
      else m
    if e.url ≠ "" then dictInsert m1 (pyStripStr (normalize_text e.url)) e.bibkey else m1) []

/-- The set of normalised author last names of one entry
(`{normalize_text(a).split()[-1] for a in authors if normalize_text(a)}`). -/
def lastNameSet (authors : List String) : Finset String :=
  ((authors.filter (fun a => normalize_text a ≠ "")).map
    (fun a => String.mk
      ((runsBy (fun c => !pyIsSpace c) (normalize_text a).toList).getLast?.getD []))).toFinset

/-- The explicit-evidence test of the edge loop: the target's key appears in
the source's raw references, or a mapped DOI/URL of the target appears there,
or the target's normalised DOI appears in the source's raw entry text. -/
def explicitRef (doiMap : List (String × String)) (a b : BibEntry) : Bool :=
  let e1 :=
    if a.references_raw ≠ "" then
      if strContains a.references_raw b.bibkey then true
      else doiMap.any (fun kv => strContains a.references_raw kv.1 && kv.2 == b.bibkey)
    else false
  if e1 then true
  else if b.doi ≠ "" then
    strContains (normalize_text a.raw_entry) (normalize_text b.doi)
  else false

/-- Python's `round(q, 4)`. -/
def pyRound4 (q : ℚ) : ℚ := (roundHalfEven (q * 10000) : ℚ) / 10000

/-- A directed graph under construction (`nx.DiGraph`): node list in
insertion order, edge weights as a partial map on ordered pairs. -/
structure CitGraph where
  nodes : List String
  edgeW : String × String → Option ℚ

def addNode (G : CitGraph) (v : String) : CitGraph :=
  { G with nodes := if v ∈ G.nodes then G.nodes else G.nodes ++ [v] }

def addEdge (G : CitGraph) (u v : String) (w : ℚ) : CitGraph :=
  let G1 := addNode (addNode G u) v
  { G1 with edgeW := fun p => if p = (u, v) then some w else G1.edgeW p }

/-- The candidate ordered pairs: for each `i`, the `j`s with title cosine at
least `title_threshold` (`np.where(sims_row >= title_threshold)`), skipping
`i == j`. -/
def candPairs (n : Nat) (cos : Nat → Nat → ℚ) (tth : ℚ) : List (Nat × Nat) :=
  ((List.range n).map (fun i =>
    ((List.range n).filter (fun j => decide (tth ≤ cos i j) && !(j == i))).map
      (fun j => (i, j)))).flatten

def entryKey (entries : List BibEntry) (i : Nat) : String :=
  (entries.getD i default).bibkey

/-- The fused score of one candidate pair: 1.0 on explicit evidence, else
`title_weight · cos + author_weight · author_overlap`. -/
def pairScoreAt (entries : List BibEntry) (cos : Nat → Nat → ℚ) (tw aw : ℚ)
    (p : Nat × Nat) : ℚ :=
  let a := entries.getD p.1 default
  let b := entries.getD p.2 default
  if explicitRef (buildDoiMap entries) a b then 1
  else
    let A := lastNameSet a.authors
    let B := lastNameSet b.authors
    let ov : ℚ := if A.card = 0 ∨ B.card = 0 then 0
      else ((A ∩ B).card : ℚ) / ((max 1 (min A.card B.card) : ℕ) : ℚ)
    tw * cos p.1 p.2 + aw * ov

/-- Process one candidate pair: add the edge when the score clears
`sim_threshold`, with weight `round(score, 4)`. -/
def buildStep (entries : List BibEntry) (cos : Nat → Nat → ℚ) (tw aw sth : ℚ)
    (G : CitGraph) (p : Nat × Nat) : CitGraph :=
  if sth ≤ pairScoreAt entries cos tw aw p then
    addEdge G (entryKey entries p.1) (entryKey entries p.2)
      (pyRound4 (pairScoreAt entries cos tw aw p))
  else G

/-- Nodes added up front, one per entry. -/
def initNodes (entries : List BibEntry) : CitGraph :=
  entries.foldl (fun G e => addNode G e.bibkey) ⟨[], fun _ => none⟩

/-- `construir_grafo_citaciones.build_citation_graph_optimized`, over the
title-cosine matrix `cos`. -/
def build_citation_graph_optimized (entries : List BibEntry)
    (cos : Nat → Nat → ℚ) (tw aw tth sth : ℚ) : CitGraph :=
  (candPairs entries.length cos tth).foldl
    (buildStep entries cos tw aw sth) (initNodes entries)

theorem roundHalfEven_bounds_gen {x : ℚ} {N : ℤ} (h0 : 0 ≤ x) (h1 : x ≤ (N:ℚ)) :
    0 ≤ roundHalfEven x ∧ roundHalfEven x ≤ N := by
  unfold roundHalfEven
  have hf0 : (0:ℤ) ≤ ⌊x⌋ := Int.floor_nonneg.mpr h0
  have hf1 : ⌊x⌋ ≤ N := by
    calc ⌊x⌋ ≤ ⌊(N:ℚ)⌋ := Int.floor_le_floor h1
      _ = N := Int.floor_intCast N
  by_cases hc1 : x - ⌊x⌋ < 1/2
  · rw [if_pos hc1]
    exact ⟨hf0, hf1⟩
  · rw [if_neg hc1]
    have hlt : ⌊x⌋ < N := by
      rcases lt_or_eq_of_le hf1 with h | h
      · exact h
      · exfalso
        apply hc1
        have hx : ((N:ℚ)) ≤ x := by
          have := Int.floor_le x
          rw [h] at this
          exact_mod_cast this
        have hxN : x = (N:ℚ) := le_antisymm h1 hx
        rw [hxN, Int.floor_intCast]
        norm_num
    by_cases hc2 : 1/2 < x - ⌊x⌋
    · rw [if_pos hc2]
      omega
    · rw [if_neg hc2]
      by_cases hc3 : ⌊x⌋ % 2 = 0
      · rw [if_pos hc3]
        omega
      · rw [if_neg hc3]
        omega

theorem pyRound4_mem_unit {q : ℚ} (h0 : 0 ≤ q) (h1 : q ≤ 1) :
    0 ≤ pyRound4 q ∧ pyRound4 q ≤ 1 := by
  have hb := @roundHalfEven_bounds_gen (q * 10000) 10000
    (by positivity) (by push_cast; linarith)
  unfold pyRound4
  constructor
  · apply div_nonneg _ (by norm_num)
    exact_mod_cast hb.1
  · rw [div_le_one (by norm_num)]
    exact_mod_cast hb.2

theorem pyRound4_one : pyRound4 1 = 1 := by
  have h1 : roundHalfEven ((1 : ℚ) * 10000) = 10000 := by
    unfold roundHalfEven
    norm_num
  rw [pyRound4, h1]
  norm_num

theorem mem_candPairs {n : Nat} {cos : Nat → Nat → ℚ} {tth : ℚ} {p : Nat × Nat} :
    p ∈ candPairs n cos tth ↔
      p.1 < n ∧ p.2 < n ∧ tth ≤ cos p.1 p.2 ∧ p.2 ≠ p.1 := by
  unfold candPairs
  rw [List.mem_flatten]
  constructor
  · rintro ⟨L, hL, hpL⟩
    rcases List.mem_map.mp hL with ⟨i, hi, rfl⟩
    rcases List.mem_map.mp hpL with ⟨j, hj, rfl⟩
    rcases List.mem_filter.mp hj with ⟨hjr, hcond⟩
    simp only [Bool.and_eq_true, decide_eq_true_eq, Bool.not_eq_true',
      beq_eq_false_iff_ne, ne_eq] at hcond
    exact ⟨List.mem_range.mp hi, List.mem_range.mp hjr, hcond.1, hcond.2⟩
  · rintro ⟨h1, h2, h3, h4⟩
    refine ⟨((List.range n).filter
        (fun j => decide (tth ≤ cos p.1 j) && !(j == p.1))).map (fun j => (p.1, j)), ?_, ?_⟩
    · exact List.mem_map.mpr ⟨p.1, List.mem_range.mpr h1, rfl⟩
    · refine List.mem_map.mpr ⟨p.2, List.mem_filter.mpr ⟨List.mem_range.mpr h2, ?_⟩, rfl⟩
      simp only [Bool.and_eq_true, decide_eq_true_eq, Bool.not_eq_true',
        beq_eq_false_iff_ne, ne_eq]
      exact ⟨h3, h4⟩

theorem foldl_addNode_edgeW : ∀ (l : List BibEntry) (G : CitGraph),
    (l.foldl (fun G e => addNode G e.bibkey) G).edgeW = G.edgeW
  | [], G => rfl
  | e :: l, G => by
    simp only [List.foldl_cons]
    rw [foldl_addNode_edgeW l (addNode G e.bibkey)]
    rfl

theorem addEdge_edgeW (G : CitGraph) (u v : String) (w : ℚ) (p : String × String) :
    (addEdge G u v w).edgeW p = if p = (u, v) then some w else G.edgeW p := rfl

theorem entryKey_inj (entries : List BibEntry)
    (hkeys : (entries.map BibEntry.bibkey).Nodup)
    {i j : Nat} (hi : i < entries.length) (hj : j < entries.length)
    (h : entryKey entries i = entryKey entries j) : i = j := by
  unfold entryKey at h
  rw [List.getD_eq_getElem entries default hi, List.getD_eq_getElem entries default hj] at h
  have hmi : i < (entries.map BibEntry.bibkey).length := by simpa using hi
  have hmj : j < (entries.map BibEntry.bibkey).length := by simpa using hj
  have h2 : (entries.map BibEntry.bibkey)[i] = (entries.map BibEntry.bibkey)[j] := by
    rw [List.getElem_map, List.getElem_map]
    exact h
  exact (List.Nodup.getElem_inj_iff hkeys).mp h2

theorem pairScoreAt_mem (entries : List BibEntry) (cos : Nat → Nat → ℚ)
    {tw aw : ℚ} (htw : 0 ≤ tw) (haw : 0 ≤ aw) (hsum : tw + aw ≤ 1)
    (hcos : ∀ i j, 0 ≤ cos i j ∧ cos i j ≤ 1) (p : Nat × Nat) :
    0 ≤ pairScoreAt entries cos tw aw p ∧ pairScoreAt entries cos tw aw p ≤ 1 := by
  unfold pairScoreAt
  by_cases hex : explicitRef (buildDoiMap entries)
      (entries.getD p.1 default) (entries.getD p.2 default) = true
  · rw [if_pos hex]
    norm_num
  · rw [if_neg hex]
    set A := lastNameSet (entries.getD p.1 default).authors with hA
    set B := lastNameSet (entries.getD p.2 default).authors with hB
    have hov : 0 ≤ (if A.card = 0 ∨ B.card = 0 then (0:ℚ)
          else ((A ∩ B).card : ℚ) / ((max 1 (min A.card B.card) : ℕ) : ℚ)) ∧
        (if A.card = 0 ∨ B.card = 0 then (0:ℚ)
          else ((A ∩ B).card : ℚ) / ((max 1 (min A.card B.card) : ℕ) : ℚ)) ≤ 1 := by
      by_cases hz : A.card = 0 ∨ B.card = 0
      · rw [if_pos hz]
        norm_num
      · rw [if_neg hz]
        apply natRatio_mem
        · have h1 : (A ∩ B).card ≤ A.card := Finset.card_le_card Finset.inter_subset_left
          have h2 : (A ∩ B).card ≤ B.card := Finset.card_le_card Finset.inter_subset_right
          omega
        · omega
    have hc := hcos p.1 p.2
    constructor
    · have h1 : 0 ≤ tw * cos p.1 p.2 := mul_nonneg htw hc.1
      have h2 : 0 ≤ aw * _ := mul_nonneg haw hov.1
      linarith
    · have h1 : tw * cos p.1 p.2 ≤ tw := by
        calc tw * cos p.1 p.2 ≤ tw * 1 := mul_le_mul_of_nonneg_left hc.2 htw
          _ = tw := mul_one tw
      have h2 : aw * _ ≤ aw * 1 := mul_le_mul_of_nonneg_left hov.2 haw
      rw [mul_one] at h2
      linarith

theorem foldl_buildStep_inv (entries : List BibEntry) (cos : Nat → Nat → ℚ)
    {tw aw : ℚ} (sth : ℚ) (htw : 0 ≤ tw) (haw : 0 ≤ aw) (hsum : tw + aw ≤ 1)
    (hcos : ∀ i j, 0 ≤ cos i j ∧ cos i j ≤ 1)
    (hkeys : (entries.map BibEntry.bibkey).Nodup) :
    ∀ (ps : List (Nat × Nat)),
      (∀ p ∈ ps, p.1 < entries.length ∧ p.2 < entries.length ∧ p.2 ≠ p.1) →
      ∀ (G : CitGraph),
      (∀ u v w, G.edgeW (u, v) = some w → u ≠ v ∧ 0 ≤ w ∧ w ≤ 1) →
      ∀ u v w, (ps.foldl (buildStep entries cos tw aw sth) G).edgeW (u, v) = some w →
        u ≠ v ∧ 0 ≤ w ∧ w ≤ 1
  | [], _, G, hG => hG
  | p :: ps, hps, G, hG => by
    simp only [List.foldl_cons]
    apply foldl_buildStep_inv entries cos sth htw haw hsum hcos hkeys ps
      (fun q hq => hps q (List.mem_cons_of_mem _ hq))
    intro u v w hw
    have hp := hps p (List.mem_cons_self _ _)
    unfold buildStep at hw
    by_cases hcond : sth ≤ pairScoreAt entries cos tw aw p
    · rw [if_pos hcond, addEdge_edgeW] at hw
      by_cases heq : (u, v) = (entryKey entries p.1, entryKey entries p.2)
      · rw [if_pos heq] at hw
        have hu : u = entryKey entries p.1 := congrArg Prod.fst heq
        have hv : v = entryKey entries p.2 := congrArg Prod.snd heq
        have hscore := pairScoreAt_mem entries cos htw haw hsum hcos p
        have hround := pyRound4_mem_unit hscore.1 hscore.2
        refine ⟨?_, ?_, ?_⟩
        · rw [hu, hv]
          intro hk
          exact hp.2.2 (entryKey_inj entries hkeys hp.2.1 hp.1 hk.symm)
        · rw [← Option.some_inj.mp hw]
          exact hround.1
        · rw [← Option.some_inj.mp hw]
          exact hround.2
      · rw [if_neg heq] at hw
        exact hG u v w hw
    · rw [if_neg hcond] at hw
      exact hG u v w hw

/-- C2 (amended): provided the parsed records carry pairwise-distinct keys,
the built graph has no self-loops; and provided the title/author weights are
nonnegative with sum at most 1 (as the defaults 0.7/0.3 are), every emitted
edge weight lies in `[0,1]`.  The title-cosine matrix is assumed to lie in
`[0,1]`, as TF-IDF cosines do.  Without distinct keys a self-loop is
emitted, and with weights summing beyond 1 an edge weight exceeds 1 — see
the counterexample. -/
theorem build_citation_graph_invariants (entries : List BibEntry)
    (cos : Nat → Nat → ℚ) (tw aw tth sth : ℚ)
    (hkeys : (entries.map BibEntry.bibkey).Nodup)
    (hcos : ∀ i j, 0 ≤ cos i j ∧ cos i j ≤ 1)
    (htw : 0 ≤ tw) (haw : 0 ≤ aw) (hsum : tw + aw ≤ 1) :
    ∀ u v w, (build_citation_graph_optimized entries cos tw aw tth sth).edgeW (u, v) = some w →
      u ≠ v ∧ 0 ≤ w ∧ w ≤ 1 := by
  unfold build_citation_graph_optimized
  apply foldl_buildStep_inv entries cos sth htw haw hsum hcos hkeys
  · intro p hp
    have h := mem_candPairs.mp hp
    exact ⟨h.1, h.2.1, h.2.2.2⟩
  · intro u v w hw
    rw [show (initNodes entries).edgeW = fun _ => none from foldl_addNode_edgeW entries _] at hw
    exact Option.noConfusion hw

/-- A minimal parsed record used as a test fixture: only key and title set. -/
def mkTestEntry (k t : String) : BibEntry :=
  ⟨k, "article", t, [], "", "", "", "", "", ""⟩

theorem buildDoiMap_test (k1 k2 t1 t2 : String) :
    buildDoiMap [mkTestEntry k1 t1, mkTestEntry k2 t2] = [] := rfl

theorem explicitRef_test (k1 k2 t1 t2 : String) :
    explicitRef (buildDoiMap [mkTestEntry k1 t1, mkTestEntry k2 t2])
      (mkTestEntry k1 t1) (mkTestEntry k2 t2) = false := rfl

theorem candPairs_two {cos : Nat → Nat → ℚ} {tth : ℚ}
    (h01 : tth ≤ cos 0 1) (h10 : tth ≤ cos 1 0) :
    candPairs 2 cos tth = [(0, 1), (1, 0)] := by
  unfold candPairs
  have e0 : (0 == 0) = true := rfl
  have e1 : (1 == 1) = true := rfl
  simp [List.range_succ, List.filter_cons, h01, h10]

theorem pairScoreAt_test (k1 k2 t1 t2 : String) (cos : Nat → Nat → ℚ)
    (tw aw : ℚ) (p : Nat × Nat) :
    pairScoreAt [mkTestEntry k1 t1, mkTestEntry k2 t2] cos tw aw p
      = tw * cos p.1 p.2 := by
  have hexp : ∀ a b : BibEntry, a.references_raw = "" → b.doi = "" →
      explicitRef (buildDoiMap [mkTestEntry k1 t1, mkTestEntry k2 t2]) a b = false := by
    intro a b hra hbd
    unfold explicitRef
    rw [hra, hbd]
    simp
  have hgm : ∀ i : Nat,
      ([mkTestEntry k1 t1, mkTestEntry k2 t2].getD i default).references_raw = "" ∧
      ([mkTestEntry k1 t1, mkTestEntry k2 t2].getD i default).doi = "" ∧
      ([mkTestEntry k1 t1, mkTestEntry k2 t2].getD i default).authors = [] := by
    intro i
    match i with
    | 0 => exact ⟨rfl, rfl, rfl⟩
    | 1 => exact ⟨rfl, rfl, rfl⟩
    | n+2 => exact ⟨rfl, rfl, rfl⟩
  simp only [pairScoreAt]
  rw [hexp _ _ (hgm p.1).1 (hgm p.2).2.1]
  simp only [Bool.false_eq_true, if_false]
  rw [(hgm p.1).2.2, (hgm p.2).2.2]
  have hcard : (lastNameSet []).card = 0 := rfl
  rw [if_pos (Or.inl hcard)]
  ring

theorem roundHalfEven_intCast (n : ℤ) : roundHalfEven ((n : ℚ)) = n := by
  unfold roundHalfEven
  rw [Int.floor_intCast]
  norm_num

/-- Evaluation of the builder on two records with equal titles (title cosine
matrix constantly 1), no authors, DOIs, URLs or references. -/
theorem build_two_lookup (k1 k2 t : String) (tw aw tth sth : ℚ)
    (htth : tth ≤ 1) (hsth : sth ≤ tw * 1) :
    (build_citation_graph_optimized [mkTestEntry k1 t, mkTestEntry k2 t]
        (fun _ _ => 1) tw aw tth sth).edgeW (k1, k2)
      = some (pyRound4 (tw * 1)) := by
  unfold build_citation_graph_optimized
  have hlen : ([mkTestEntry k1 t, mkTestEntry k2 t] : List BibEntry).length = 2 := rfl
  rw [hlen, @candPairs_two (fun _ _ => 1) tth htth htth]
  have hs01 := pairScoreAt_test k1 k2 t t (fun _ _ => (1:ℚ)) tw aw (0, 1)
  have hs10 := pairScoreAt_test k1 k2 t t (fun _ _ => (1:ℚ)) tw aw (1, 0)
  simp only [List.foldl_cons, List.foldl_nil, buildStep, hs01, hs10]
  rw [if_pos hsth, if_pos hsth]
  have hk0 : entryKey [mkTestEntry k1 t, mkTestEntry k2 t] 0 = k1 := rfl
  have hk1 : entryKey [mkTestEntry k1 t, mkTestEntry k2 t] 1 = k2 := rfl
  rw [hk0, hk1, addEdge_edgeW]
  by_cases heq : ((k1, k2) : String × String) = (k2, k1)
  · rw [if_pos heq]
  · rw [if_neg heq, addEdge_edgeW, if_pos rfl]

/-- C2 counterexample: two parsed records can share one bibkey (two blocks
with the same BibTeX key), and with identical titles (TF-IDF cosine 1) and
default thresholds the builder emits the self-loop `k→k` with weight 0.7;
moreover with the weight configuration `title_weight = 5, author_weight = 0`
the emitted weight is 5, outside `[0,1]`. -/
theorem build_citation_graph_counterexample :
    ((build_citation_graph_optimized
        [mkTestEntry "k" "same title", mkTestEntry "k" "same title"]
        (fun _ _ => 1) (7/10) (3/10) (1/2) (3/5)).edgeW ("k", "k") = some (7/10)) ∧
    ((build_citation_graph_optimized
        [mkTestEntry "k1" "same title", mkTestEntry "k2" "same title"]
        (fun _ _ => 1) 5 0 (1/2) (3/5)).edgeW ("k1", "k2") = some 5) ∧
    ¬ ((5:ℚ) ≤ 1) := by
  have h710 : pyRound4 ((7/10 : ℚ) * 1) = 7/10 := by
    have h1 : ((7/10 : ℚ) * 1) * 10000 = ((7000 : ℤ) : ℚ) := by norm_num
    unfold pyRound4
    rw [h1, roundHalfEven_intCast]
    norm_num
  have h5 : pyRound4 ((5 : ℚ) * 1) = 5 := by
    have h1 : ((5 : ℚ) * 1) * 10000 = ((50000 : ℤ) : ℚ) := by norm_num
    unfold pyRound4
    rw [h1, roundHalfEven_intCast]
    norm_num
  refine ⟨?_, ?_, by norm_num⟩
  · rw [build_two_lookup "k" "k" "same title" (7/10) (3/10) (1/2) (3/5)
      (by norm_num) (by norm_num), h710]
  · rw [build_two_lookup "k1" "k2" "same title" 5 0 (1/2) (3/5)
      (by norm_num) (by norm_num), h5]

/-- Witness for `build_citation_graph_invariants` at a concrete graph. -/
theorem build_citation_graph_invariants_witness :
    ((build_citation_graph_optimized
        [mkTestEntry "a1" "t", mkTestEntry "b1" "t"]
        (fun _ _ => 1) (7/10) (3/10) (1/2) (3/5)).edgeW ("a1", "b1") = some (7/10)) ∧
    ("a1" ≠ "b1" ∧ 0 ≤ (7/10 : ℚ) ∧ (7/10 : ℚ) ≤ 1) := by
  have h710 : pyRound4 ((7/10 : ℚ) * 1) = 7/10 := by
    have h1 : ((7/10 : ℚ) * 1) * 10000 = ((7000 : ℤ) : ℚ) := by norm_num
    unfold pyRound4
    rw [h1, roundHalfEven_intCast]
    norm_num
  have hEdge : ((build_citation_graph_optimized
      [mkTestEntry "a1" "t", mkTestEntry "b1" "t"]
      (fun _ _ => 1) (7/10) (3/10) (1/2) (3/5)).edgeW ("a1", "b1") = some (7/10)) := by
    rw [build_two_lookup "a1" "b1" "t" (7/10) (3/10) (1/2) (3/5)
      (by norm_num) (by norm_num), h710]
  refine ⟨hEdge, ?_⟩
  exact build_citation_graph_invariants _ (fun _ _ => 1) (7/10) (3/10) (1/2) (3/5)
    (by decide) (fun i j => by norm_num) (by norm_num) (by norm_num) (by norm_num)
    "a1" "b1" (7/10) hEdge

/-- If every later candidate pair writing to `key` would write value 1, a
stored weight of 1 persists through the rest of the fold. -/
theorem foldl_buildStep_keep (entries : List BibEntry) (cos : Nat → Nat → ℚ)
    (tw aw sth : ℚ) (key : String × String) :
    ∀ (ps : List (Nat × Nat)),
      (∀ p ∈ ps, (entryKey entries p.1, entryKey entries p.2) = key →
        pyRound4 (pairScoreAt entries cos tw aw p) = 1) →
      ∀ (G : CitGraph), G.edgeW key = some 1 →
      (ps.foldl (buildStep entries cos tw aw sth) G).edgeW key = some 1
  | [], _, G, hG => hG
  | p :: ps, hval, G, hG => by
    simp only [List.foldl_cons]
    apply foldl_buildStep_keep entries cos tw aw sth key ps
      (fun q hq => hval q (List.mem_cons_of_mem _ hq))
    unfold buildStep
    by_cases hcond : sth ≤ pairScoreAt entries cos tw aw p
    · rw [if_pos hcond, addEdge_edgeW]
      by_cases heq : key = (entryKey entries p.1, entryKey entries p.2)
      · rw [if_pos heq]
        rw [hval p (List.mem_cons_self _ _) heq.symm]
      · rw [if_neg heq]
        exact hG
    · rw [if_neg hcond]
      exact hG

/-- C1 (amended): explicit evidence (the target's key or DOI literally in
the source's raw references or raw entry) forces the edge `A→B` with weight
exactly 1.0 — *provided* the pair survives the title-cosine candidate filter
(`cos i j ≥ title_threshold`) and `sim_threshold ≤ 1`.  A pair whose title
cosine is below `title_threshold` is never examined, so no edge is emitted
even with explicit evidence (see the counterexample). -/
theorem build_citation_graph_explicit_edge (entries : List BibEntry)
    (cos : Nat → Nat → ℚ) (tw aw tth sth : ℚ)
    (hkeys : (entries.map BibEntry.bibkey).Nodup)
    {i j : Nat} (hi : i < entries.length) (hj : j < entries.length) (hij : j ≠ i)
    (hcand : tth ≤ cos i j)
    (hexp : explicitRef (buildDoiMap entries)
      (entries.getD i default) (entries.getD j default) = true)
    (hsth : sth ≤ 1) :
    (build_citation_graph_optimized entries cos tw aw tth sth).edgeW
      (entryKey entries i, entryKey entries j) = some 1 := by
  have hscore : pairScoreAt entries cos tw aw (i, j) = 1 := by
    unfold pairScoreAt
    rw [if_pos hexp]
  have hmem : (i, j) ∈ candPairs entries.length cos tth :=
    mem_candPairs.mpr ⟨hi, hj, hcand, hij⟩
  rcases List.append_of_mem hmem with ⟨l1, l2, hsplit⟩
  unfold build_citation_graph_optimized
  rw [hsplit, List.foldl_append, List.foldl_cons]
  set Gmid := l1.foldl (buildStep entries cos tw aw sth) (initNodes entries) with hGmid
  have hstep : (buildStep entries cos tw aw sth Gmid (i, j)).edgeW
      (entryKey entries i, entryKey entries j) = some 1 := by
    unfold buildStep
    rw [hscore, if_pos hsth, addEdge_edgeW, if_pos rfl, pyRound4_one]
  apply foldl_buildStep_keep
  · intro p hp hkey
    have hpmem : p ∈ candPairs entries.length cos tth := by
      rw [hsplit]
      exact List.mem_append.mpr (Or.inr (List.mem_cons_of_mem _ hp))
    have hpc := mem_candPairs.mp hpmem
    have hp1 : p.1 = i := entryKey_inj entries hkeys hpc.1 hi (congrArg Prod.fst hkey)
    have hp2 : p.2 = j := entryKey_inj entries hkeys hpc.2.1 hj (congrArg Prod.snd hkey)
    have hpij : p = (i, j) := Prod.ext hp1 hp2
    rw [hpij, hscore, pyRound4_one]
  · exact hstep

/-- C1 counterexample: record `A`'s raw references literally contain record
`B`'s key, but the titles share no word, so the title cosine is 0 — below
`title_threshold = 0.5` — and the pair is never examined: no edge `A→B` is
emitted at all, contradicting "weight 1.0 regardless of title cosine
similarity".  (The cosine matrix is 1 on the diagonal and 0 off it, the
TF-IDF cosine of two titles with disjoint unigram/bigram sets.) -/
theorem build_citation_graph_explicit_counterexample :
    explicitRef
      (buildDoiMap
        [⟨"ka", "article", "alpha beta", [], "", "", "", "", "kb", "@article{ka,}"⟩,
         ⟨"kb", "article", "gamma delta", [], "", "", "", "", "", "@article{kb,}"⟩])
      ⟨"ka", "article", "alpha beta", [], "", "", "", "", "kb", "@article{ka,}"⟩
      ⟨"kb", "article", "gamma delta", [], "", "", "", "", "", "@article{kb,}"⟩ = true ∧
    (build_citation_graph_optimized
        [⟨"ka", "article", "alpha beta", [], "", "", "", "", "kb", "@article{ka,}"⟩,
         ⟨"kb", "article", "gamma delta", [], "", "", "", "", "", "@article{kb,}"⟩]
        (fun i j => if i = j then 1 else 0) (7/10) (3/10) (1/2) (3/5)).edgeW
      ("ka", "kb") = none := by
  constructor
  · rfl
  · have hpairs : candPairs 2 (fun i j => if i = j then (1:ℚ) else 0) (1/2) = [] := by
      unfold candPairs
      norm_num [List.range_succ, List.filter_cons]
    unfold build_citation_graph_optimized
    rw [show ([⟨"ka", "article", "alpha beta", [], "", "", "", "", "kb", "@article{ka,}"⟩,
         ⟨"kb", "article", "gamma delta", [], "", "", "", "", "", "@article{kb,}"⟩]
         : List BibEntry).length = 2 from rfl, hpairs]
    rw [List.foldl_nil]
    rw [show (initNodes
        [⟨"ka", "article", "alpha beta", [], "", "", "", "", "kb", "@article{ka,}"⟩,
         ⟨"kb", "article", "gamma delta", [], "", "", "", "", "", "@article{kb,}"⟩]).edgeW
      = fun _ => none from foldl_addNode_edgeW _ _]

/-- Witness for `build_citation_graph_explicit_edge`: with equal titles
(cosine 1, passing the candidate filter) and the reference field holding the
target's key, the edge is emitted with weight exactly 1. -/
theorem build_citation_graph_explicit_edge_witness :
    explicitRef
      (buildDoiMap
        [⟨"ka2", "article", "same t", [], "", "", "", "", "kb2", "@article{ka2,}"⟩,
         ⟨"kb2", "article", "same t", [], "", "", "", "", "", "@article{kb2,}"⟩])
      ⟨"ka2", "article", "same t", [], "", "", "", "", "kb2", "@article{ka2,}"⟩
      ⟨"kb2", "article", "same t", [], "", "", "", "", "", "@article{kb2,}"⟩ = true ∧
    (build_citation_graph_optimized
        [⟨"ka2", "article", "same t", [], "", "", "", "", "kb2", "@article{ka2,}"⟩,
         ⟨"kb2", "article", "same t", [], "", "", "", "", "", "@article{kb2,}"⟩]
        (fun _ _ => 1) (7/10) (3/10) (1/2) (3/5)).edgeW ("ka2", "kb2") = some 1 := by
  constructor
  · rfl
  · exact @build_citation_graph_explicit_edge
      [⟨"ka2", "article", "same t", [], "", "", "", "", "kb2", "@article{ka2,}"⟩,
       ⟨"kb2", "article", "same t", [], "", "", "", "", "", "@article{kb2,}"⟩]
      (fun _ _ => 1) (7/10) (3/10) (1/2) (3/5) (by decide)
      0 1 (by norm_num) (by norm_num) (by norm_num)
      (by norm_num) rfl (by norm_num)

/-! ## `grafo_coocurrencia.py`

The module-level script: a fixed vocabulary of terms, an undirected
`nx.Graph` with one node per term, and for every abstract one weight
increment on each unordered pair of terms occurring (as `\b`-delimited
whole-word/phrase regex matches) in that abstract. -/

/-- The fixed vocabulary `top_terminos`. -/
def top_terminos : List String :=
  ["machine learning", "generative models", "prompting", "ethics",
   "training data", "fine-tuning", "multimodality", "transparency",
   "privacy", "explainability", "human-ai interaction", "ai literacy",
   "co-creation", "personalization", "algorithmic bias"]

/-- Regex word characters (`\w`), for the ASCII vocabulary at hand. -/
def isWordChar (c : Char) : Bool := c.isAlpha || c.isDigit || c == '_'

/-- `\b<term>\b` matches in `abstract` at position `i`: the term occurs
there and both ends sit on a word/non-word boundary (string edges count as
non-word). -/
def wordBoundaryMatchAt (term abstract : PyStr) (i : Nat) : Bool :=
  ((abstract.drop i).take term.length == term) &&
  ((if i = 0 then false else isWordChar (abstract.getD (i - 1) ' '))
      != isWordChar (term.headD ' ')) &&
  (isWordChar (term.getLastD ' ')
      != isWordChar (abstract.getD (i + term.length) ' '))

/-- `re.search(r'\b' + re.escape(term) + r'\b', abstract)` succeeds. -/
def reSearchWord (term abstract : PyStr) : Bool :=
  (List.range (abstract.length + 1)).any (fun i => wordBoundaryMatchAt term abstract i)

/-- The vocabulary terms present in one abstract
(`[term for term in top_terminos if re.search(...)]`). -/
def presentTerms (vocab : List String) (abstract : String) : List String :=
  vocab.filter (fun term => reSearchWord term.toList abstract.toList)

/-- `itertools.combinations(l, 2)`. -/
def pairsOf : List String → List (String × String)
  | [] => []
  | x :: rest => rest.map (fun y => (x, y)) ++ pairsOf rest

/-- Undirected edge-key match (`nx.Graph.has_edge`). -/
def sameEdge (q p : String × String) : Bool := (q == p) || (q == (p.2, p.1))

/-- Process one co-occurring pair:
`weight += 1` if the (undirected) edge exists, else `add_edge(weight=1)`. -/
def coAddE (es : List ((String × String) × Nat)) (p : String × String) :
    List ((String × String) × Nat) :=
  if es.any (fun kv => sameEdge kv.1 p) then
    es.map (fun kv => if sameEdge kv.1 p then (kv.1, kv.2 + 1) else kv)
  else es ++ [(p, 1)]

/-- The undirected co-occurrence graph: node list and weighted edge list. -/
structure CoGraph where
  nodes : List String
  edges : List ((String × String) × Nat)

/-- One abstract's contribution: an increment per co-occurring pair. -/
def processAbstract (vocab : List String) (G : CoGraph) (abstract : String) : CoGraph :=
  { G with edges := (pairsOf (presentTerms vocab abstract)).foldl coAddE G.edges }

/-- The co-occurrence graph construction of `grafo_coocurrencia.py`
(`G.add_nodes_from(top_terminos)` then the per-abstract loop). -/
def build_cooccurrence_graph (vocab : List String) (abstracts : List String) : CoGraph :=
  abstracts.foldl (processAbstract vocab) ⟨vocab, []⟩

/-- Weight of the (undirected) edge `{a, b}`, `none` when absent. -/
def edgesWeight (es : List ((String × String) × Nat)) (a b : String) : Option Nat :=
  (es.find? (fun kv => sameEdge kv.1 (a, b))).map (fun kv => kv.2)

def coWeight (G : CoGraph) (a b : String) : Option Nat := edgesWeight G.edges a b

theorem sameEdge_eq_true_iff (q t : String × String) :
    sameEdge q t = true ↔ (q = t ∨ q = (t.2, t.1)) := by
  unfold sameEdge
  simp

theorem sameEdge_trans_eq {p t : String × String} (h : sameEdge p t = true) (q : String × String) :
    sameEdge q p = sameEdge q t := by
  rcases (sameEdge_eq_true_iff p t).mp h with rfl | h2
  · rfl
  · have : p.1 = t.2 := congrArg Prod.fst h2
    have : p.2 = t.1 := congrArg Prod.snd h2
    rcases q with ⟨q1, q2⟩
    rcases p with ⟨p1, p2⟩
    rcases t with ⟨t1, t2⟩
    simp only [Prod.mk.injEq] at h2
    rcases h2 with ⟨rfl, rfl⟩
    unfold sameEdge
    simp only [Prod.mk.injEq]
    rw [Bool.or_comm]

theorem sameEdge_not_of {p : String × String} {a b : String}
    (hp : sameEdge p (a, b) = false) {q : String × String}
    (hq : sameEdge q (a, b) = true) : sameEdge q p = false := by
  rcases Bool.eq_false_or_eq_true (sameEdge q p) with h | h
  swap
  · exact h
  exfalso
  rcases p with ⟨p1, p2⟩
  rcases (sameEdge_eq_true_iff q (a, b)).mp hq with rfl | hq2
  · rcases (sameEdge_eq_true_iff _ (p1, p2)).mp h with h3 | h3
    · rw [← h3] at hp
      unfold sameEdge at hp
      simp at hp
    · simp only [Prod.mk.injEq] at h3
      rcases h3 with ⟨rfl, rfl⟩
      unfold sameEdge at hp
      simp at hp
  · simp only [] at hq2
    subst hq2
    rcases (sameEdge_eq_true_iff _ (p1, p2)).mp h with h3 | h3
    · rw [← h3] at hp
      unfold sameEdge at hp
      simp at hp
    · simp only [Prod.mk.injEq] at h3
      rcases h3 with ⟨rfl, rfl⟩
      unfold sameEdge at hp
      simp at hp

theorem pairsOf_mem : ∀ (l : List String) (u v : String),
    (u, v) ∈ pairsOf l → u ∈ l ∧ v ∈ l
  | [], _, _, h => absurd h (List.not_mem_nil _)
  | x :: rest, u, v, h => by
    rcases List.mem_append.mp h with h | h
    · rcases List.mem_map.mp h with ⟨y, hy, heq⟩
      have hu : u = x := (congrArg Prod.fst heq).symm
      have hv : v = y := (congrArg Prod.snd heq).symm
      subst hu
      subst hv
      exact ⟨List.mem_cons_self _ _, List.mem_cons_of_mem _ hy⟩
    · have := pairsOf_mem rest u v h
      exact ⟨List.mem_cons_of_mem _ this.1, List.mem_cons_of_mem _ this.2⟩

theorem sameEdge_left (a b y : String) (hab : a ≠ b) :
    sameEdge (a, y) (a, b) = (y == b) := by
  unfold sameEdge
  by_cases h : y = b
  · subst h
    simp
  · have h1 : ((a, y) == (a, b)) = false := by
      simp only [beq_eq_false_iff_ne, ne_eq, Prod.mk.injEq, not_and]
      intro _
      exact h
    have h2 : ((a, y) == (b, a)) = false := by
      simp only [beq_eq_false_iff_ne, ne_eq, Prod.mk.injEq, not_and]
      intro hba
      exact absurd hba hab
    have h3 : (y == b) = false := by
      simp only [beq_eq_false_iff_ne, ne_eq]
      exact h
    rw [h1, h2, h3]
    rfl

theorem sameEdge_right (a b y : String) (hab : a ≠ b) :
    sameEdge (b, y) (a, b) = (y == a) := by
  unfold sameEdge
  by_cases h : y = a
  · subst h
    simp
  · have h1 : ((b, y) == (a, b)) = false := by
      simp only [beq_eq_false_iff_ne, ne_eq, Prod.mk.injEq, not_and]
      intro hba
      exact absurd hba.symm hab
    have h2 : ((b, y) == (b, a)) = false := by
      simp only [beq_eq_false_iff_ne, ne_eq, Prod.mk.injEq, not_and]
      intro _
      exact h
    have h3 : (y == a) = false := by
      simp only [beq_eq_false_iff_ne, ne_eq]
      exact h
    rw [h1, h2, h3]
    rfl

theorem sameEdge_neither (a b x y : String) (hxa : x ≠ a) (hxb : x ≠ b) :
    sameEdge (x, y) (a, b) = false := by
  unfold sameEdge
  have h1 : ((x, y) == (a, b)) = false := by
    simp only [beq_eq_false_iff_ne, ne_eq, Prod.mk.injEq, not_and]
    intro hxa2
    exact absurd hxa2 hxa
  have h2 : ((x, y) == (b, a)) = false := by
    simp only [beq_eq_false_iff_ne, ne_eq, Prod.mk.injEq, not_and]
    intro hxb2
    exact absurd hxb2 hxb
  rw [h1, h2]
  rfl

theorem countP_beq_nodup (b : String) : ∀ l : List String, l.Nodup →
    l.countP (fun y => y == b) = if b ∈ l then 1 else 0
  | [], _ => by simp
  | y :: rest, hnd => by
    rcases List.nodup_cons.mp hnd with ⟨hy, hrest⟩
    rw [List.countP_cons, countP_beq_nodup b rest hrest]
    by_cases hyb : y = b
    · subst hyb
      rw [if_neg hy, if_pos (List.mem_cons_self _ _)]
      simp
    · have h1 : (if (y == b) = true then 1 else 0) = 0 := by
        simp [hyb]
      rw [h1, Nat.add_zero]
      by_cases hbr : b ∈ rest
      · rw [if_pos hbr, if_pos (List.mem_cons_of_mem _ hbr)]
      · rw [if_neg hbr, if_neg ?_]
        intro hmem
        rcases List.mem_cons.mp hmem with h | h
        · exact hyb h.symm
        · exact hbr h

theorem countP_pairsOf (a b : String) (hab : a ≠ b) :
    ∀ l : List String, l.Nodup →
      (pairsOf l).countP (fun q => sameEdge q (a, b))
        = if a ∈ l ∧ b ∈ l then 1 else 0 := by
  intro l
  induction l with
  | nil => simp [pairsOf]
  | cons x rest ih =>
    intro hnd
    rcases List.nodup_cons.mp hnd with ⟨hx, hrest⟩
    simp only [pairsOf, List.countP_append, List.countP_map]
    rw [ih hrest]
    by_cases hxa : x = a
    · subst hxa
      have hcong : rest.countP ((fun q => sameEdge q (x, b)) ∘ (fun y => (x, y)))
          = rest.countP (fun y => y == b) := by
        apply List.countP_congr
        intro y _
        simp only [Function.comp_apply]
        rw [sameEdge_left x b y hab]
      rw [hcong, countP_beq_nodup b rest hrest]
      have hnand : ¬ (x ∈ rest ∧ b ∈ rest) := fun h => hx h.1
      rw [if_neg hnand, Nat.add_zero]
      have hbm : (b ∈ x :: rest) ↔ b ∈ rest := by
        rw [List.mem_cons]
        constructor
        · rintro (h | h)
          · exact absurd h.symm hab
          · exact h
        · exact Or.inr
      by_cases hbr : b ∈ rest
      · rw [if_pos hbr, if_pos ⟨List.mem_cons_self _ _, hbm.mpr hbr⟩]
      · rw [if_neg hbr, if_neg (fun h => hbr (hbm.mp h.2))]
    · by_cases hxb : x = b
      · subst hxb
        have hcong : rest.countP ((fun q => sameEdge q (a, x)) ∘ (fun y => (x, y)))
            = rest.countP (fun y => y == a) := by
          apply List.countP_congr
          intro y _
          simp only [Function.comp_apply]
          rw [sameEdge_right a x y hab]
        rw [hcong, countP_beq_nodup a rest hrest]
        have hnand : ¬ (a ∈ rest ∧ x ∈ rest) := fun h => hx h.2
        rw [if_neg hnand, Nat.add_zero]
        have ham : (a ∈ x :: rest) ↔ a ∈ rest := by
          rw [List.mem_cons]
          constructor
          · rintro (h | h)
            · exact absurd h hab
            · exact h
          · exact Or.inr
        by_cases har : a ∈ rest
        · rw [if_pos har, if_pos ⟨ham.mpr har, List.mem_cons_self _ _⟩]
        · rw [if_neg har, if_neg (fun h => har (ham.mp h.1))]
      · have hcong : rest.countP ((fun q => sameEdge q (a, b)) ∘ (fun y => (x, y)))
            = rest.countP (fun _ => false) := by
          apply List.countP_congr
          intro y _
          simp only [Function.comp_apply]
          rw [sameEdge_neither a b x y hxa hxb]
        have hzero : rest.countP (fun _ => false) = 0 := by
          simp
        rw [hcong, hzero, Nat.zero_add]
        have hmem : ((a ∈ x :: rest) ∧ (b ∈ x :: rest)) ↔ (a ∈ rest ∧ b ∈ rest) := by
          rw [List.mem_cons, List.mem_cons]
          constructor
          · rintro ⟨(h | h), (h' | h')⟩
            · exact absurd h.symm hxa
            · exact absurd h.symm hxa
            · exact absurd h'.symm hxb
            · exact ⟨h, h'⟩
          · rintro ⟨h, h'⟩
            exact ⟨Or.inr h, Or.inr h'⟩
        by_cases hm : a ∈ rest ∧ b ∈ rest
        · rw [if_pos hm, if_pos (hmem.mpr hm)]
        · rw [if_neg hm, if_neg (fun h => hm (hmem.mp h))]

theorem find?_append_eq (pred : (String × String) × Nat → Bool) (x : (String × String) × Nat)
    (hx : pred x = false) :
    ∀ es : List ((String × String) × Nat), (es ++ [x]).find? pred = es.find? pred
  | [] => by simp [List.find?, hx]
  | kv :: es => by
    by_cases hkv : pred kv
    · rw [List.cons_append, List.find?_cons_of_pos _ hkv, List.find?_cons_of_pos _ hkv]
    · rw [List.cons_append, List.find?_cons_of_neg _ (by simp [hkv]),
        List.find?_cons_of_neg _ (by simp [hkv])]
      exact find?_append_eq pred x hx es

theorem find?_incr (pred : String × String → Bool)
    (es : List ((String × String) × Nat))
    (h : es.any (fun kv => pred kv.1) = true) :
    ((es.map (fun kv => if pred kv.1 then (kv.1, kv.2 + 1) else kv)).find?
        (fun kv => pred kv.1)).map (fun kv => kv.2)
      = some ((((es.find? (fun kv => pred kv.1)).map (fun kv => kv.2)).getD 0) + 1) := by
  rw [List.find?_map]
  have hcomp : ((fun kv : (String × String) × Nat => pred kv.1) ∘
      (fun kv => if pred kv.1 then (kv.1, kv.2 + 1) else kv))
      = (fun kv : (String × String) × Nat => pred kv.1) := by
    funext kv
    by_cases hkv : pred kv.1
    · simp [Function.comp_apply, hkv]
    · simp [Function.comp_apply, hkv]
  rw [hcomp]
  obtain ⟨kv0, hkv0⟩ : ∃ kv0, es.find? (fun kv => pred kv.1) = some kv0 := by
    rcases List.any_eq_true.mp h with ⟨x, hx, hpx⟩
    exact Option.isSome_iff_exists.mp (List.find?_isSome.mpr ⟨x, hx, hpx⟩)
  rw [hkv0]
  have hpkv0 := List.find?_some hkv0
  simp only [] at hpkv0
  simp [hpkv0]

theorem find?_untouched (a b : String) (p : String × String)
    (hp : sameEdge p (a, b) = false)
    (es : List ((String × String) × Nat)) :
    ((es.map (fun kv => if sameEdge kv.1 p then (kv.1, kv.2 + 1) else kv)).find?
       (fun kv => sameEdge kv.1 (a, b))).map (fun kv => kv.2)
    = ((es.find? (fun kv => sameEdge kv.1 (a, b))).map (fun kv => kv.2)) := by
  rw [List.find?_map]
  have hcomp : ((fun kv : (String × String) × Nat => sameEdge kv.1 (a, b)) ∘
      (fun kv => if sameEdge kv.1 p then (kv.1, kv.2 + 1) else kv))
      = (fun kv : (String × String) × Nat => sameEdge kv.1 (a, b)) := by
    funext kv
    by_cases hkv : sameEdge kv.1 p
    · simp [Function.comp_apply, hkv]
    · simp [Function.comp_apply, hkv]
  rw [hcomp]
  cases hf : es.find? (fun kv => sameEdge kv.1 (a, b)) with
  | none => simp
  | some kv0 =>
    have hpkv0 := List.find?_some hf
    simp only [] at hpkv0
    have hkvp : sameEdge kv0.1 p = false := sameEdge_not_of hp hpkv0
    simp [hkvp]

theorem find?_append_last (pred : (String × String) × Nat → Bool)
    (x : (String × String) × Nat) (hx : pred x = true) :
    ∀ es : List ((String × String) × Nat), es.find? pred = none →
      (es ++ [x]).find? pred = some x
  | [], _ => by simp [List.find?_cons, hx]
  | kv :: es, h => by
    have hall := List.find?_eq_none.mp h
    have hkv : ¬ pred kv = true := hall kv (List.mem_cons_self _ _)
    rw [List.cons_append, List.find?_cons_of_neg _ hkv]
    exact find?_append_last pred x hx es
      (List.find?_eq_none.mpr (fun y hy => hall y (List.mem_cons_of_mem _ hy)))

theorem edgesWeight_coAddE_hit (a b : String) (p : String × String)
    (hp : sameEdge p (a, b) = true) (es : List ((String × String) × Nat)) :
    edgesWeight (coAddE es p) a b = some ((edgesWeight es a b).getD 0 + 1) := by
  have hpt : ∀ q : String × String, sameEdge q p = sameEdge q (a, b) :=
    fun q => sameEdge_trans_eq hp q
  unfold coAddE edgesWeight
  simp only [hpt]
  by_cases hany : es.any (fun kv => sameEdge kv.1 (a, b))
  · rw [if_pos hany]
    exact find?_incr (fun q => sameEdge q (a, b)) es hany
  · rw [if_neg hany]
    have hnone : es.find? (fun kv => sameEdge kv.1 (a, b)) = none :=
      List.find?_eq_none.mpr
        (fun x hx hpx => hany (List.any_eq_true.mpr ⟨x, hx, hpx⟩))
    rw [find?_append_last _ (p, 1) hp es hnone, hnone]
    rfl

theorem edgesWeight_coAddE_miss (a b : String) (p : String × String)
    (hp : sameEdge p (a, b) = false) (es : List ((String × String) × Nat)) :
    edgesWeight (coAddE es p) a b = edgesWeight es a b := by
  unfold coAddE edgesWeight
  by_cases hany : es.any (fun kv => sameEdge kv.1 p)
  · rw [if_pos hany]
    exact find?_untouched a b p hp es
  · rw [if_neg hany]
    rw [find?_append_eq _ (p, 1) hp es]

theorem edgesWeight_foldl (a b : String) :
    ∀ (ps : List (String × String)) (es : List ((String × String) × Nat)),
      edgesWeight (ps.foldl coAddE es) a b
        = (if ps.countP (fun q => sameEdge q (a, b)) = 0 then edgesWeight es a b
           else some ((edgesWeight es a b).getD 0 + ps.countP (fun q => sameEdge q (a, b))))
  | [], es => by simp
  | q :: ps, es => by
    rw [List.foldl_cons, edgesWeight_foldl a b ps (coAddE es q), List.countP_cons]
    by_cases hq : sameEdge q (a, b)
    · rw [edgesWeight_coAddE_hit a b q hq es]
      simp only [hq, if_true]
      by_cases hc : ps.countP (fun q => sameEdge q (a, b)) = 0
      · rw [if_pos hc, hc]
        simp
      · rw [if_neg hc, if_neg (by omega)]
        simp only [Option.getD_some]
        exact congrArg some (by omega)
    · rw [edgesWeight_coAddE_miss a b q (Bool.eq_false_iff.mpr hq) es]
      simp only [hq, if_false, Bool.false_eq_true, Nat.add_zero]

theorem presentTerms_nodup (vocab : List String) (abstract : String)
    (h : vocab.Nodup) : (presentTerms vocab abstract).Nodup :=
  h.filter _

theorem mem_presentTerms (vocab : List String) (abstract : String) (t : String) :
    t ∈ presentTerms vocab abstract ↔
      t ∈ vocab ∧ reSearchWord t.toList abstract.toList = true := by
  unfold presentTerms
  rw [List.mem_filter]

theorem edgesWeight_processAbstract (vocab : List String) (hnd : vocab.Nodup)
    (a b : String) (ha : a ∈ vocab) (hb : b ∈ vocab) (hab : a ≠ b)
    (s : String) (es : List ((String × String) × Nat)) :
    edgesWeight ((pairsOf (presentTerms vocab s)).foldl coAddE es) a b
      = (if (reSearchWord a.toList s.toList && reSearchWord b.toList s.toList) = true
         then some ((edgesWeight es a b).getD 0 + 1) else edgesWeight es a b) := by
  rw [edgesWeight_foldl,
    countP_pairsOf a b hab _ (presentTerms_nodup vocab s hnd)]
  by_cases hm : a ∈ presentTerms vocab s ∧ b ∈ presentTerms vocab s
  · have hra : reSearchWord a.toList s.toList = true :=
      ((mem_presentTerms vocab s a).mp hm.1).2
    have hrb : reSearchWord b.toList s.toList = true :=
      ((mem_presentTerms vocab s b).mp hm.2).2
    rw [if_pos hm, if_neg (by omega)]
    rw [if_pos (by rw [hra, hrb]; rfl)]
  · have hand : (reSearchWord a.toList s.toList && reSearchWord b.toList s.toList) = false := by
      cases h1 : reSearchWord a.toList s.toList with
      | false => simp
      | true =>
        cases h2 : reSearchWord b.toList s.toList with
        | false => simp
        | true =>
          exact absurd ⟨(mem_presentTerms vocab s a).mpr ⟨ha, h1⟩,
            (mem_presentTerms vocab s b).mpr ⟨hb, h2⟩⟩ hm
    rw [if_neg hm, if_pos rfl, if_neg (by rw [hand]; exact Bool.false_ne_true)]

theorem nodes_fold_processAbstract (vocab : List String) :
    ∀ (abstracts : List String) (G : CoGraph),
      (abstracts.foldl (processAbstract vocab) G).nodes = G.nodes
  | [], _ => rfl
  | s :: rest, G => by
    rw [List.foldl_cons, nodes_fold_processAbstract vocab rest]
    rfl

theorem edgesWeight_fold_abstracts (vocab : List String) (hnd : vocab.Nodup)
    (a b : String) (ha : a ∈ vocab) (hb : b ∈ vocab) (hab : a ≠ b) :
    ∀ (abstracts : List String) (G : CoGraph),
      edgesWeight ((abstracts.foldl (processAbstract vocab) G).edges) a b
        = (if abstracts.countP (fun s => reSearchWord a.toList s.toList
              && reSearchWord b.toList s.toList) = 0 then edgesWeight G.edges a b
           else some ((edgesWeight G.edges a b).getD 0
              + abstracts.countP (fun s => reSearchWord a.toList s.toList
                  && reSearchWord b.toList s.toList)))
  | [], G => by simp
  | s :: rest, G => by
    rw [List.foldl_cons, List.countP_cons,
      edgesWeight_fold_abstracts vocab hnd a b ha hb hab rest (processAbstract vocab G s)]
    have hpe : (processAbstract vocab G s).edges
        = (pairsOf (presentTerms vocab s)).foldl coAddE G.edges := rfl
    rw [hpe, edgesWeight_processAbstract vocab hnd a b ha hb hab s G.edges]
    by_cases hs : (reSearchWord a.toList s.toList && reSearchWord b.toList s.toList) = true
    · rw [if_pos hs]
      simp only [hs, if_true]
      by_cases hc : rest.countP (fun t => reSearchWord a.toList t.toList
          && reSearchWord b.toList t.toList) = 0
      · rw [if_pos hc, hc]
        simp
      · rw [if_neg hc, if_neg (by omega)]
        simp only [Option.getD_some]
        exact congrArg some (by omega)
    · rw [if_neg hs]
      have hsf : (reSearchWord a.toList s.toList && reSearchWord b.toList s.toList) = false :=
        Bool.eq_false_iff.mpr hs
      simp only [hsf, if_false, Bool.false_eq_true, Nat.add_zero]

/-- **C9.** The co-occurrence graph builder keeps every vocabulary term as a
node, whether or not it gains an incident edge; for distinct terms `a`, `b`
of a duplicate-free vocabulary, the undirected edge `{a, b}` carries weight
equal to the number of abstracts containing both terms as whole-word
(`\b`-delimited) regex matches when that number is at least 1, and is
entirely absent (`none`, not a zero-weight edge) when no abstract contains
both; the repo's fixed vocabulary `top_terminos` is duplicate-free, and on
the two-abstract example only the first abstract contains both `"x"` and
`"y"`, giving edge weight 1. -/
theorem cooccurrence_graph_spec :
    (∀ (vocab abstracts : List String),
        (build_cooccurrence_graph vocab abstracts).nodes = vocab) ∧
    (∀ (vocab abstracts : List String) (a b : String),
        vocab.Nodup → a ∈ vocab → b ∈ vocab → a ≠ b →
        coWeight (build_cooccurrence_graph vocab abstracts) a b
          = (if abstracts.countP (fun s => reSearchWord a.toList s.toList
                && reSearchWord b.toList s.toList) = 0 then none
             else some (abstracts.countP (fun s => reSearchWord a.toList s.toList
                && reSearchWord b.toList s.toList)))) ∧
    top_terminos.Nodup ∧
    coWeight (build_cooccurrence_graph ["x", "y"] ["x y", "x z"]) "x" "y" = some 1 := by
  refine ⟨?_, ?_, by decide, by decide⟩
  · intro vocab abstracts
    exact nodes_fold_processAbstract vocab abstracts ⟨vocab, []⟩
  · intro vocab abstracts a b hnd ha hb hab
    unfold coWeight build_cooccurrence_graph
    rw [edgesWeight_fold_abstracts vocab hnd a b ha hb hab abstracts ⟨vocab, []⟩]
    have hempty : edgesWeight ({ nodes := vocab, edges := [] } : CoGraph).edges a b = none := rfl
    rw [hempty]
    simp

/-- Witness for `cooccurrence_graph_spec`: on a concrete duplicate-free
vocabulary and three abstracts, the edge weight between `"u"` and `"v"`
matches the count of abstracts containing both. -/
theorem cooccurrence_graph_spec_witness :
    (["u", "v", "w"] : List String).Nodup ∧ ("u" : String) ∈ ["u", "v", "w"] ∧
    coWeight (build_cooccurrence_graph ["u", "v", "w"] ["u v!", "w u", "v u x"]) "u" "v"
      = (if (["u v!", "w u", "v u x"].countP (fun s => reSearchWord "u".toList s.toList
            && reSearchWord "v".toList s.toList)) = 0 then none
         else some ((["u v!", "w u", "v u x"].countP (fun s => reSearchWord "u".toList s.toList
            && reSearchWord "v".toList s.toList)))) :=
  ⟨by decide, by decide,
    cooccurrence_graph_spec.2.1 ["u", "v", "w"] ["u v!", "w u", "v u x"] "u" "v"
      (by decide) (by decide) (by decide) (by decide)⟩
